import Mathlib

/-! # Verification of the ASTU SmartDesk RAG core

Shallow embedding of the RAG orchestration engine of this repository:
text normalization and chunking (`backend/utils/textProcessing.ts`),
vector similarity utilities (`vectorUtils`), and the ingestion / answer
pipelines of `backend/controllers/chatController.ts`.

Strings are modelled as `List Char`.  JS numbers used as array indices are
modelled as `Nat`; with the default chunking parameters every subtraction
performed by the source stays nonnegative, so truncated subtraction agrees
with JS arithmetic on the reachable states.  JS floats are modelled as real
numbers (idealized arithmetic).
-/

namespace SmartDesk

/-- JS `String.prototype.trim` whitespace class: WhiteSpace
(TAB, VT, FF, SP, NBSP, ZWNBSP, Unicode space separators) and
LineTerminator (LF, CR, LS, PS). -/
def isJsWhitespace (c : Char) : Bool :=
  c = ' ' || c = '\t' || c = '\n' || c = '\r' ||
  c = '\x0b' || c = '\x0c' ||
  c.val = 0xa0 || c.val = 0xfeff || c.val = 0x1680 ||
  (0x2000 ≤ c.val && c.val ≤ 0x200a) ||
  c.val = 0x2028 || c.val = 0x2029 || c.val = 0x202f ||
  c.val = 0x205f || c.val = 0x3000

/-- JS `s.trim()`: drop whitespace from both ends. -/
def jsTrim (l : List Char) : List Char :=
  ((l.dropWhile isJsWhitespace).reverse.dropWhile isJsWhitespace).reverse

/-- `.replace(/\r\n/g, '\n')`: leftmost non-overlapping global replacement. -/
def replCRLF : List Char → List Char
  | [] => []
  | [c] => [c]
  | c :: d :: rest =>
    if c = '\r' ∧ d = '\n' then '\n' :: replCRLF rest
    else c :: replCRLF (d :: rest)

/-- `.replace(/\r/g, '\n')`: the pattern has length one, so this is a map. -/
def replCR (l : List Char) : List Char :=
  l.map fun c => if c = '\r' then '\n' else c

/-- Character class `[ \t]`. -/
def isSpaceTab (c : Char) : Bool := c = ' ' || c = '\t'

/-- State machine for `.replace(/[ \t]+/g, ' ')`: the flag records whether
the scanner is inside a space/tab run (whose single replacement `' '` has
already been emitted). Each maximal run becomes exactly one space. -/
def collapseSpacesAux : Bool → List Char → List Char
  | _, [] => []
  | inRun, c :: rest =>
    if isSpaceTab c then
      if inRun then collapseSpacesAux true rest
      else ' ' :: collapseSpacesAux true rest
    else c :: collapseSpacesAux false rest

/-- `.replace(/[ \t]+/g, ' ')`. -/
def collapseSpaces (l : List Char) : List Char :=
  collapseSpacesAux false l

/-- Newline test used by the `\n{3,}` regex. -/
def isNL (c : Char) : Bool := c = '\n'

/-- Replacement for one maximal newline run of length `n`: runs of three or
more become exactly two, shorter runs are kept. -/
def flushNL (n : Nat) : List Char :=
  if n ≥ 3 then ['\n', '\n'] else List.replicate n '\n'

/-- State machine for `.replace(/\n{3,}/g, '\n\n')`: `n` counts the pending
consecutive newlines already read. -/
def collapseNLAux : Nat → List Char → List Char
  | n, [] => flushNL n
  | n, c :: rest =>
    if isNL c then collapseNLAux (n + 1) rest
    else flushNL n ++ c :: collapseNLAux 0 rest

/-- `.replace(/\n{3,}/g, '\n\n')`. -/
def collapseNewlines (l : List Char) : List Char :=
  collapseNLAux 0 l

/-- `cleanText` from `backend/utils/textProcessing.ts`: normalize line
endings, collapse space/tab runs, cap newline runs at two, trim. -/
def cleanText (l : List Char) : List Char :=
  jsTrim (collapseNewlines (collapseSpaces (replCR (replCRLF l))))

/-! ## Chunker (`chunkText` / `findSentenceEnd`) -/

/-- A text chunk with metadata, `TextChunk` of `textProcessing.ts`. -/
structure TextChunk where
  text : List Char
  index : Nat
  startChar : Nat
  endChar : Nat
deriving DecidableEq, Repr

/-- `s.substring(a, b)` for `a ≤ b`: the slice `[a, b)`. -/
def substring (l : List Char) (a b : Nat) : List Char :=
  (l.drop a).take (b - a)

/-- JS `searchText.lastIndexOf(pat, fromIdx)` for a nonempty pattern:
the largest index `i ≤ fromIdx` at which `pat` occurs, `none` when there
is none (JS `-1`). -/
def lastIndexOfFrom (s pat : List Char) (fromIdx : Nat) : Option Nat :=
  (List.range (fromIdx + 1)).reverse.find? fun i => pat.isPrefixOf (s.drop i)

/-- The six sentence terminators of `findSentenceEnd`. -/
def sentenceEnders : List (List Char) :=
  [['.', ' '], ['!', ' '], ['?', ' '], ['.', '\n'], ['!', '\n'], ['?', '\n']]

/-- One comparator step of `findSentenceEnd`'s loop over the enders: the
accumulator is `none` while `bestPos = -1`, otherwise `(bestPos, minDistance)`;
only a strictly smaller distance replaces the current best. -/
def fseStep (searchStart target fromIdx : Nat) (searchText : List Char)
    (acc : Option (Nat × Nat)) (ender : List Char) : Option (Nat × Nat) :=
  match lastIndexOfFrom searchText ender fromIdx with
  | none => acc
  | some pos =>
    let actualPos := searchStart + pos + ender.length
    let dist := max actualPos target - min actualPos target
    match acc with
    | none => some (actualPos, dist)
    | some (bp, md) => if dist < md then some (actualPos, dist) else some (bp, md)

/-- `findSentenceEnd(text, start, target)` from `textProcessing.ts`. -/
def findSentenceEnd (text : List Char) (start target : Nat) : Nat :=
  let searchStart := max start (target - 200)
  let searchEnd := min text.length (target + 100)
  let searchText := substring text searchStart searchEnd
  match sentenceEnders.foldl (fseStep searchStart target (target - searchStart) searchText) none with
  | none => target
  | some (bp, _) => if bp > start then bp else target

/-- The `endChar` computation of one `chunkText` loop iteration: cap the
window at the text length, and if the window does not reach the end try to
move the cut to a sentence boundary after the cursor. -/
def chunkEnd (cleaned : List Char) (chunkSize startChar : Nat) : Nat :=
  let endChar0 := min (startChar + chunkSize) cleaned.length
  if endChar0 < cleaned.length then
    let s := findSentenceEnd cleaned startChar endChar0
    if s > startChar then s else endChar0
  else endChar0

/-- The mutable state of the `chunkText` while loop. -/
structure LoopState where
  startChar : Nat
  chunkIndex : Nat
  chunks : List TextChunk
deriving DecidableEq, Repr

/-- One iteration of the `chunkText` loop body: compute the cut point, trim
the slice, push it (with its index) unless it trimmed to empty, step the
cursor back by `overlap`, and force it to `endChar` when it did not advance
past the last pushed chunk's start (`chunks[chunks.length - 1]?.startChar`;
the comparison with JS `undefined` is false, leaving the cursor as is). -/
def chunkStep (cleaned : List Char) (chunkSize overlap : Nat) (st : LoopState) :
    LoopState :=
  let endChar := chunkEnd cleaned chunkSize st.startChar
  let ctext := jsTrim (substring cleaned st.startChar endChar)
  let chunks' :=
    if ctext.length > 0 then
      st.chunks ++ [⟨ctext, st.chunkIndex, st.startChar, endChar⟩]
    else st.chunks
  let chunkIndex' := if ctext.length > 0 then st.chunkIndex + 1 else st.chunkIndex
  let start1 := endChar - overlap
  let start2 :=
    match chunks'.getLast? with
    | some c => if start1 ≤ c.startChar then endChar else start1
    | none => start1
  ⟨start2, chunkIndex', chunks'⟩

/-- One-iteration-per-fuel-unit unfolding of the `while (startChar <
cleanedText.length)` loop of `chunkText`.  `none` means the loop would still
be running after `fuel` iterations (never happens for the fuel used by
`chunkText`, as proved below). -/
def chunkLoop (cleaned : List Char) (chunkSize overlap : Nat) :
    Nat → LoopState → Option (List TextChunk)
  | 0, _ => none
  | fuel + 1, st =>
    if st.startChar < cleaned.length then
      chunkLoop cleaned chunkSize overlap fuel (chunkStep cleaned chunkSize overlap st)
    else some st.chunks

/-- `chunkText(text, chunkSize, overlap)` from `textProcessing.ts`.  The
loop is run with fuel `cleaned.length + 1`, which is more than enough for
the default parameters (proved below); `some` is the list the JS function
returns. -/
def chunkText (text : List Char) (chunkSize : Nat := 1000) (overlap : Nat := 200) :
    Option (List TextChunk) :=
  let cleaned := cleanText text
  if cleaned.length ≤ chunkSize then
    some [⟨cleaned, 0, 0, cleaned.length⟩]
  else
    chunkLoop cleaned chunkSize overlap (cleaned.length + 1) ⟨0, 0, []⟩

/-! ## Vector utilities (`vectorUtils`)

JS floats are modelled as real numbers (idealized arithmetic); `throw` is
modelled by `Except.error`. -/

/-- `cosineSimilarity(vecA, vecB)` from the vector utilities: throws on a
dimension mismatch, returns 0 for empty vectors and for zero norms, and
otherwise the normalized dot product.  The three loop accumulators are the
three sums below. -/
noncomputable def cosineSimilarity (vecA vecB : List ℝ) : Except String ℝ :=
  if vecA.length ≠ vecB.length then .error "Vectors must have the same dimension"
  else if vecA.length = 0 then .ok 0
  else
    let dotProduct := ∑ i in Finset.range vecA.length, vecA.getD i 0 * vecB.getD i 0
    let normA := Real.sqrt (∑ i in Finset.range vecA.length, vecA.getD i 0 * vecA.getD i 0)
    let normB := Real.sqrt (∑ i in Finset.range vecA.length, vecB.getD i 0 * vecB.getD i 0)
    if normA = 0 ∨ normB = 0 then .ok 0
    else .ok (dotProduct / (normA * normB))

/-- An item with an embedding, the `T extends { embedding: number[] }` of
`findTopKSimilar`; `payload` stands for the remaining fields. -/
structure EmbeddedItem (α : Type) where
  payload : α
  embedding : List ℝ

/-- `findTopKSimilar(queryVector, items, k)`: drop items with empty
embeddings, attach the cosine similarity to each remaining item (a throwing
`cosineSimilarity` propagates), sort descending by similarity — JS
`Array.prototype.sort` is a stable comparator sort, modelled by
`mergeSort` — and keep the first `k`. -/
noncomputable def findTopKSimilar {α : Type} (queryVector : List ℝ)
    (items : List (EmbeddedItem α)) (k : Nat := 5) :
    Except String (List (EmbeddedItem α × ℝ)) := do
  let itemsWithScores ← (items.filter fun it => it.embedding.length > 0).mapM
    fun it => (cosineSimilarity queryVector it.embedding).map fun s => (it, s)
  pure ((itemsWithScores.mergeSort fun a b => decide (b.2 ≤ a.2)).take k)

/-! ## Ingestion pipeline (`chatController.ts`)

`generateEmbedding` calls the external Voyage service; the HTTP exchange is
abstracted as a `VoyageOutcome` oracle.  Every path of the source function
either returns the embedding vector or throws — its catch block explicitly
re-throws instead of returning `null`. -/

/-- Outcome of the external embedding-service HTTP call. -/
inductive VoyageOutcome
  | success (vec : List ℝ)
  | http401
  | http429
  | httpOther (msg : String)
  | invalidResponse

/-- `generateEmbedding(text)` from `chatController.ts`: config and shape
validation plus provider-error mapping; failures are thrown, never a `null`
result. -/
def generateEmbedding (svc : List Char → VoyageOutcome) (apiKeyConfigured : Bool)
    (text : List Char) : Except String (List ℝ) :=
  if !apiKeyConfigured then
    .error "Failed to generate embedding: VOYAGE_API_KEY is not configured"
  else
    match svc text with
    | .success emb =>
      if emb.length ≠ 1024 then
        .error "Failed to generate embedding: Invalid embedding dimensions"
      else .ok emb
    | .http401 => .error "Voyage AI API key is invalid"
    | .http429 => .error "Voyage AI rate limit exceeded"
    | .httpOther m => .error ("Failed to generate embedding: " ++ m)
    | .invalidResponse => .error "Failed to generate embedding: Invalid response from Voyage AI"

/-- A document record as created by the ingestion pipeline (the fields of
`DocumentModel.create` relevant to chunking; ids are abstracted as the
position in the list of created records, so the parent's id is 0). -/
structure DocRecord where
  title : String
  content : List Char
  embedding : List ℝ
  isChunk : Bool
  parentDocumentId : Option Nat := none
  chunkIndex : Option Nat := none
  chunkCount : Option Nat := none

/-- `processAndSaveDocument(title, content, ...)` from `chatController.ts`,
parameterized by the embedding call `embed` (= `generateEmbedding` with its
oracle fixed).  On success the returned list holds every record created, in
creation order (parent first; `Promise.all` keeps the chunk order).  An
uncaught throw — in particular an `embed` failure — is `Except.error`, in
which case the call fails instead of reporting success. -/
def processAndSaveDocument (embed : List Char → Except String (List ℝ))
    (title : String) (content : List Char) : Except String (List DocRecord) :=
  let cleanedContent := cleanText content
  let needsChunking := cleanedContent.length > 2000
  if needsChunking then
    match chunkText cleanedContent 1000 200 with
    | none => .error "chunkText did not terminate"
    | some chunks => do
      let parent : DocRecord :=
        { title := title, content := cleanedContent, embedding := [],
          isChunk := false, chunkCount := some chunks.length }
      let children ← chunks.enum.mapM fun ic => do
        let embedding ← embed ic.2.text
        pure { title := title ++ " (Chunk " ++ toString (ic.1 + 1) ++ "/"
                 ++ toString chunks.length ++ ")",
               content := ic.2.text, embedding := embedding, isChunk := true,
               parentDocumentId := some 0, chunkIndex := some ic.2.index,
               chunkCount := some chunks.length : DocRecord }
      pure (parent :: children)
  else do
    let embedding ← embed cleanedContent
    pure [{ title := title, content := cleanedContent, embedding := embedding,
            isChunk := false }]

/-! ## Answer pipeline (`askQuestion` in `chatController.ts`)

The external collaborators (embedding service, document store searches,
Gemini generation, chat-history store) are oracle fields of `AskDeps`; `D`
is the stored document type. The model covers the pipeline after
authentication / express validation. -/

structure AskDeps (D : Type) where
  embed : List Char → Except String (List ℝ)
  vectorSearch : List ℝ → Nat → Except String (List D)
  textSearch : List Char → Nat → Except String (List D)
  generate : List Char → List D → Except String String
  saveHistory : String → List Char → String → List D → Except String Unit

/-- `findRelevantDocumentsByEmbedding`: Atlas vector search, any error is
caught and turned into the empty result. -/
def findRelevantDocumentsByEmbedding {D : Type} (deps : AskDeps D)
    (queryEmbedding : List ℝ) (limit : Nat := 3) : List D :=
  match deps.vectorSearch queryEmbedding limit with
  | .ok results => results
  | .error _ => []

/-- `findRelevantDocuments`: lexical text search fallback, any error is
caught and turned into the empty result. -/
def findRelevantDocuments {D : Type} (deps : AskDeps D)
    (query : List Char) (limit : Nat := 3) : List D :=
  match deps.textSearch query limit with
  | .ok documents => if documents.length > 0 then documents else []
  | .error _ => []

/-- The three HTTP outcomes of `askQuestion`: 400 validation rejection,
500 from the outer catch, 200 with answer, session id and sources. -/
inductive AskResult (D : Type)
  | validationError (msg : String)
  | serverError (msg : String)
  | success (answer : String) (sessionId : String) (sources : List D)
deriving DecidableEq

/-- `askQuestion` from `chatController.ts` after auth/validation plumbing:
question checks, session-id resolution (`freshSessionId` stands for the
generated `session_${userId}_${Date.now()}`), embedding with caught
failure, vector search with lexical fallback, generation (uncaught: its
failure reaches the outer catch), history write (caught and ignored),
response.  The response's `sources` array is `relevantDocs` mapped to a
view; the model returns the documents themselves. -/
def askQuestion {D : Type} (deps : AskDeps D) (question : String)
    (sessionId : Option String) (freshSessionId : String) : AskResult D :=
  if (jsTrim question.data).length = 0 then
    .validationError "Please provide a question"
  else if question.length > 1000 then
    .validationError "Question is too long (max 1000 characters)"
  else
    let chatSessionId := sessionId.getD freshSessionId
    let queryEmbedding : Option (List ℝ) :=
      match deps.embed question.data with
      | .ok v => some v
      | .error _ => none
    let relevantDocs :=
      match queryEmbedding with
      | some v =>
        if v.length > 0 then
          let r := findRelevantDocumentsByEmbedding deps v 3
          if r.length = 0 then findRelevantDocuments deps question.data 3 else r
        else findRelevantDocuments deps question.data 3
      | none => findRelevantDocuments deps question.data 3
    match deps.generate question.data relevantDocs with
    | .error e => .serverError e
    | .ok aiResponse =>
      -- Step 4: history save; its failure is caught and logged only.
      let _saved := deps.saveHistory chatSessionId question.data aiResponse relevantDocs
      .success aiResponse chatSessionId relevantDocs

/-! ## Invariant predicates for the normalization passes -/

/-- No two adjacent characters are both in `[ \t]` (the state after
`collapseSpaces`). -/
def NoAdjST : List Char → Prop
  | a :: b :: rest => ¬(isSpaceTab a = true ∧ isSpaceTab b = true) ∧ NoAdjST (b :: rest)
  | _ => True

/-- No three consecutive newlines (the state after `collapseNewlines`). -/
def NoTripleNL : List Char → Prop
  | a :: b :: c :: rest =>
    ¬(a = '\n' ∧ b = '\n' ∧ c = '\n') ∧ NoTripleNL (b :: c :: rest)
  | _ => True

/-! # Theorems -/

/-! ## Facts about `jsTrim` -/

theorem dropWhile_dropWhile (p : Char → Bool) (l : List Char) :
    (l.dropWhile p).dropWhile p = l.dropWhile p := by
  induction l with
  | nil => rfl
  | cons c rest ih =>
    cases h : p c <;> simp [List.dropWhile_cons, h, ih]

theorem head?_dropWhile (p : Char → Bool) (l : List Char) :
    ∀ c, (l.dropWhile p).head? = some c → p c = false := by
  induction l with
  | nil => simp
  | cons c rest ih =>
    intro d hd
    cases h : p c
    · rw [List.dropWhile_cons_of_neg (by simp [h])] at hd
      simp at hd
      rw [← hd]; exact h
    · rw [List.dropWhile_cons_of_pos (by simp [h])] at hd
      exact ih d hd

theorem dropWhile_eq_self_of_head {p : Char → Bool} {l : List Char}
    (h : ∀ c, l.head? = some c → p c = false) : l.dropWhile p = l := by
  cases l with
  | nil => rfl
  | cons c rest => rw [List.dropWhile_cons_of_neg (by simp [h c rfl])]

theorem isPrefix_head? {l₁ l₂ : List Char} (h : l₁ <+: l₂) (hne : l₁ ≠ []) :
    l₂.head? = l₁.head? := by
  obtain ⟨t, rfl⟩ := h
  cases l₁ with
  | nil => exact absurd rfl hne
  | cons c r => rfl

theorem jsTrim_prefix_dropWhile (l : List Char) :
    jsTrim l <+: l.dropWhile isJsWhitespace := by
  have h2 : (l.dropWhile isJsWhitespace).reverse.dropWhile isJsWhitespace <:+
      (l.dropWhile isJsWhitespace).reverse := List.dropWhile_suffix _
  rw [jsTrim]
  rw [← List.reverse_suffix]
  simpa using h2

theorem jsTrim_within (l : List Char) : jsTrim l <:+: l := by
  have h1 := List.IsPrefix.isInfix (jsTrim_prefix_dropWhile l)
  have h2 := List.IsSuffix.isInfix (List.dropWhile_suffix isJsWhitespace (l := l))
  exact List.IsInfix.trans h1 h2

theorem mem_jsTrim {c : Char} {l : List Char} (h : c ∈ jsTrim l) : c ∈ l :=
  (jsTrim_within l).sublist.subset h

theorem jsTrim_head? (l : List Char) :
    ∀ c, (jsTrim l).head? = some c → isJsWhitespace c = false := by
  intro c hc
  have hne : jsTrim l ≠ [] := by
    intro h; rw [h] at hc; exact Option.noConfusion hc
  have h := isPrefix_head? (jsTrim_prefix_dropWhile l) hne
  exact head?_dropWhile isJsWhitespace l c (by rw [h, hc])

theorem jsTrim_getLast? (l : List Char) :
    ∀ c, (jsTrim l).getLast? = some c → isJsWhitespace c = false := by
  intro c hc
  rw [jsTrim, List.getLast?_reverse] at hc
  exact head?_dropWhile isJsWhitespace _ c hc

theorem jsTrim_eq_self {l : List Char}
    (h1 : ∀ c, l.head? = some c → isJsWhitespace c = false)
    (h2 : ∀ c, l.getLast? = some c → isJsWhitespace c = false) : jsTrim l = l := by
  rw [jsTrim, dropWhile_eq_self_of_head h1,
    dropWhile_eq_self_of_head (by simpa [List.head?_reverse] using h2),
    List.reverse_reverse]

theorem jsTrim_idem (l : List Char) : jsTrim (jsTrim l) = jsTrim l :=
  jsTrim_eq_self (jsTrim_head? l) (jsTrim_getLast? l)

/-! ## Facts about the invariant predicates -/

theorem noAdjST_nil : NoAdjST [] := trivial

theorem noAdjST_cons {a : Char} {l : List Char} :
    NoAdjST (a :: l) ↔
      (∀ b, l.head? = some b → ¬(isSpaceTab a = true ∧ isSpaceTab b = true)) ∧
      NoAdjST l := by
  cases l with
  | nil => simp [NoAdjST]
  | cons b r =>
    show (¬_ ∧ NoAdjST (b :: r)) ↔ _
    constructor
    · rintro ⟨h1, h2⟩
      exact ⟨fun c hc => by rw [show c = b by simpa using hc.symm]; exact h1, h2⟩
    · rintro ⟨h1, h2⟩
      exact ⟨h1 b rfl, h2⟩

theorem NoAdjST.tail_adj {a : Char} {l : List Char} (h : NoAdjST (a :: l)) : NoAdjST l :=
  (noAdjST_cons.1 h).2

theorem noAdjST_append_right {l₁ l₂ : List Char} (h : NoAdjST (l₁ ++ l₂)) :
    NoAdjST l₂ := by
  induction l₁ with
  | nil => exact h
  | cons c r ih => exact ih (NoAdjST.tail_adj h)

theorem noAdjST_append_left {l₁ l₂ : List Char} (h : NoAdjST (l₁ ++ l₂)) :
    NoAdjST l₁ := by
  induction l₁ with
  | nil => trivial
  | cons c r ih =>
    rcases noAdjST_cons.1 h with ⟨h1, h2⟩
    refine noAdjST_cons.2 ⟨fun b hb => ?_, ih h2⟩
    refine h1 b ?_
    cases r with
    | nil => exact Option.noConfusion hb
    | cons d r' => simpa using hb

theorem NoAdjST.within_adj {l₁ l₂ : List Char} (h : NoAdjST l₂) (hi : l₁ <:+: l₂) :
    NoAdjST l₁ := by
  obtain ⟨s, t, rfl⟩ := hi
  exact noAdjST_append_left (@noAdjST_append_right s _ (by rwa [← List.append_assoc]))

theorem noTripleNL_nil : NoTripleNL [] := trivial

theorem noTripleNL_cons {a : Char} {l : List Char} :
    NoTripleNL (a :: l) ↔
      (∀ b c r, l = b :: c :: r → ¬(a = '\n' ∧ b = '\n' ∧ c = '\n')) ∧
      NoTripleNL l := by
  cases l with
  | nil => simp [NoTripleNL]
  | cons b r =>
    cases r with
    | nil => simp [NoTripleNL]
    | cons c r' =>
      show (¬_ ∧ NoTripleNL (b :: c :: r')) ↔ _
      constructor
      · rintro ⟨h1, h2⟩
        refine ⟨fun b' c' r'' hb => ?_, h2⟩
        injection hb with h1' h2'
        injection h2' with h3' h4'
        subst h1'; subst h3'
        exact h1
      · rintro ⟨h1, h2⟩
        exact ⟨h1 b c r' rfl, h2⟩

theorem NoTripleNL.tail_nl {a : Char} {l : List Char} (h : NoTripleNL (a :: l)) :
    NoTripleNL l :=
  (noTripleNL_cons.1 h).2

theorem noTripleNL_append_right {l₁ l₂ : List Char} (h : NoTripleNL (l₁ ++ l₂)) :
    NoTripleNL l₂ := by
  induction l₁ with
  | nil => exact h
  | cons c r ih => exact ih (NoTripleNL.tail_nl h)

theorem noTripleNL_append_left {l₁ l₂ : List Char} (h : NoTripleNL (l₁ ++ l₂)) :
    NoTripleNL l₁ := by
  induction l₁ with
  | nil => trivial
  | cons c r ih =>
    rcases noTripleNL_cons.1 h with ⟨h1, h2⟩
    refine noTripleNL_cons.2 ⟨fun b c' r' hb => ?_, ih h2⟩
    exact h1 b c' (r' ++ l₂) (by rw [hb]; simp)

theorem NoTripleNL.within_nl {l₁ l₂ : List Char} (h : NoTripleNL l₂)
    (hi : l₁ <:+: l₂) : NoTripleNL l₁ := by
  obtain ⟨s, t, rfl⟩ := hi
  exact noTripleNL_append_left
    (@noTripleNL_append_right s _ (by rwa [← List.append_assoc]))

/-! ## The line-ending passes -/

theorem not_mem_replCR (l : List Char) : '\r' ∉ replCR l := by
  intro h
  simp only [replCR, List.mem_map] at h
  obtain ⟨a, _, ha⟩ := h
  by_cases hc : a = '\r' <;> simp [hc] at ha

theorem replCR_eq_self {l : List Char} (h : '\r' ∉ l) : replCR l = l := by
  induction l with
  | nil => rfl
  | cons c rest ih =>
    have hc : c ≠ '\r' := fun hc => h (hc ▸ List.mem_cons_self c rest)
    simp only [replCR, List.map_cons, if_neg hc]
    exact congrArg _ (ih fun hm => h (List.mem_cons_of_mem c hm))

theorem replCRLF_eq_self : ∀ (l : List Char), '\r' ∉ l → replCRLF l = l
  | [], _ => rfl
  | [_], _ => rfl
  | c :: d :: rest, h => by
    have hc : c ≠ '\r' := fun hc => h (hc ▸ List.mem_cons_self c _)
    rw [replCRLF, if_neg (fun hcd => hc hcd.1)]
    exact congrArg _ (replCRLF_eq_self (d :: rest)
      fun hm => h (List.mem_cons_of_mem c hm))

/-! ## The `collapseSpaces` pass -/

theorem mem_collapseSpacesAux :
    ∀ (l : List Char) (b : Bool) (c : Char),
      c ∈ collapseSpacesAux b l → c = ' ' ∨ c ∈ l
  | [], b, c => by simp [collapseSpacesAux]
  | d :: rest, b, c => by
    intro h
    by_cases hd : isSpaceTab d = true
    · rw [collapseSpacesAux, if_pos hd] at h
      cases b with
      | true =>
        rcases mem_collapseSpacesAux rest true c h with h' | h'
        · exact Or.inl h'
        · exact Or.inr (List.mem_cons_of_mem d h')
      | false =>
        rcases List.mem_cons.1 h with h' | h'
        · exact Or.inl h'
        · rcases mem_collapseSpacesAux rest true c h' with h'' | h''
          · exact Or.inl h''
          · exact Or.inr (List.mem_cons_of_mem d h'')
    · rw [collapseSpacesAux, if_neg hd] at h
      rcases List.mem_cons.1 h with h' | h'
      · exact Or.inr (h' ▸ List.mem_cons_self d rest)
      · rcases mem_collapseSpacesAux rest false c h' with h'' | h''
        · exact Or.inl h''
        · exact Or.inr (List.mem_cons_of_mem d h'')

theorem not_tab_collapseSpacesAux :
    ∀ (l : List Char) (b : Bool), '\t' ∉ collapseSpacesAux b l
  | [], b => by simp [collapseSpacesAux]
  | d :: rest, b => by
    intro h
    by_cases hd : isSpaceTab d = true
    · rw [collapseSpacesAux, if_pos hd] at h
      cases b with
      | true => exact not_tab_collapseSpacesAux rest true h
      | false =>
        rcases List.mem_cons.1 h with h' | h'
        · exact absurd h' (by decide)
        · exact not_tab_collapseSpacesAux rest true h'
    · rw [collapseSpacesAux, if_neg hd] at h
      rcases List.mem_cons.1 h with h' | h'
      · rw [← h'] at hd; exact hd (by decide)
      · exact not_tab_collapseSpacesAux rest false h'

theorem head?_collapseSpacesAux_true :
    ∀ (l : List Char) (c : Char),
      (collapseSpacesAux true l).head? = some c → isSpaceTab c = false
  | [], c => by simp [collapseSpacesAux]
  | d :: rest, c => by
    intro h
    by_cases hd : isSpaceTab d = true
    · rw [collapseSpacesAux, if_pos hd] at h
      exact head?_collapseSpacesAux_true rest c h
    · rw [collapseSpacesAux, if_neg hd] at h
      simp only [List.head?_cons, Option.some.injEq] at h
      rw [← h]; simpa using hd

theorem noAdjST_collapseSpacesAux :
    ∀ (l : List Char) (b : Bool), NoAdjST (collapseSpacesAux b l)
  | [], b => by simp [collapseSpacesAux]; trivial
  | d :: rest, b => by
    by_cases hd : isSpaceTab d = true
    · rw [collapseSpacesAux, if_pos hd]
      cases b with
      | true => exact noAdjST_collapseSpacesAux rest true
      | false =>
        refine noAdjST_cons.2 ⟨fun c hc hand => ?_, noAdjST_collapseSpacesAux rest true⟩
        rw [head?_collapseSpacesAux_true rest c hc] at hand
        exact Bool.noConfusion hand.2
    · rw [collapseSpacesAux, if_neg hd]
      refine noAdjST_cons.2 ⟨fun c _ hand => hd hand.1, noAdjST_collapseSpacesAux rest false⟩

theorem collapseSpacesAux_true_eq_false {l : List Char}
    (h : ∀ c, l.head? = some c → isSpaceTab c = false) :
    collapseSpacesAux true l = collapseSpacesAux false l := by
  cases l with
  | nil => rfl
  | cons d rest =>
    rw [collapseSpacesAux, collapseSpacesAux, if_neg, if_neg] <;>
      simp [h d rfl]

theorem collapseSpacesAux_false_eq_self :
    ∀ (l : List Char), '\t' ∉ l → NoAdjST l → collapseSpacesAux false l = l
  | [], _, _ => rfl
  | d :: rest, ht, hadj => by
    by_cases hd : isSpaceTab d = true
    · have hds : d = ' ' := by
        rcases (by simpa [isSpaceTab] using hd : d = ' ' ∨ d = '\t') with h' | h'
        · exact h'
        · exact absurd (h' ▸ List.mem_cons_self d rest) ht
      subst hds
      rw [collapseSpacesAux, if_pos hd]
      have hrest : ∀ c, rest.head? = some c → isSpaceTab c = false := by
        intro c hc
        by_contra hcc
        exact (noAdjST_cons.1 hadj).1 c hc ⟨hd, by simpa using hcc⟩
      rw [collapseSpacesAux_true_eq_false hrest,
        collapseSpacesAux_false_eq_self rest
          (fun hm => ht (List.mem_cons_of_mem _ hm)) hadj.tail_adj]
      simp
    · rw [collapseSpacesAux, if_neg hd,
        collapseSpacesAux_false_eq_self rest
          (fun hm => ht (List.mem_cons_of_mem _ hm)) hadj.tail_adj]

/-! ## The `collapseNewlines` pass -/

theorem flushNL_cases (n : Nat) :
    flushNL n = [] ∨ flushNL n = ['\n'] ∨ flushNL n = ['\n', '\n'] := by
  match n with
  | 0 => exact Or.inl rfl
  | 1 => exact Or.inr (Or.inl rfl)
  | 2 => exact Or.inr (Or.inr rfl)
  | n + 3 => exact Or.inr (Or.inr (by simp [flushNL]))

theorem mem_flushNL {c : Char} {n : Nat} (h : c ∈ flushNL n) : c = '\n' := by
  rcases flushNL_cases n with h' | h' | h' <;> rw [h'] at h <;> simp at h <;> simp [h]

theorem mem_collapseNLAux :
    ∀ (l : List Char) (n : Nat) (c : Char),
      c ∈ collapseNLAux n l → c = '\n' ∨ c ∈ l
  | [], n, c => fun h => Or.inl (mem_flushNL h)
  | d :: rest, n, c => by
    intro h
    by_cases hd : isNL d = true
    · rw [collapseNLAux, if_pos hd] at h
      rcases mem_collapseNLAux rest (n + 1) c h with h' | h'
      · exact Or.inl h'
      · exact Or.inr (List.mem_cons_of_mem d h')
    · rw [collapseNLAux, if_neg hd] at h
      rcases List.mem_append.1 h with h' | h'
      · exact Or.inl (mem_flushNL h')
      · rcases List.mem_cons.1 h' with h'' | h''
        · exact Or.inr (h'' ▸ List.mem_cons_self d rest)
        · rcases mem_collapseNLAux rest 0 c h'' with h3 | h3
          · exact Or.inl h3
          · exact Or.inr (List.mem_cons_of_mem d h3)

theorem collapseNLAux_head?_pos :
    ∀ (l : List Char) (n : Nat), 1 ≤ n → (collapseNLAux n l).head? = some '\n'
  | [], n, hn => by
    rcases flushNL_cases n with h | h | h
    · exfalso
      rw [flushNL] at h
      split at h
      · exact List.noConfusion h
      · have := congrArg List.length h
        simp at this
        omega
    · rw [collapseNLAux, h]; rfl
    · rw [collapseNLAux, h]; rfl
  | d :: rest, n, hn => by
    by_cases hd : isNL d = true
    · rw [collapseNLAux, if_pos hd]
      exact collapseNLAux_head?_pos rest (n + 1) (by omega)
    · rw [collapseNLAux, if_neg hd]
      rcases flushNL_cases n with h | h | h
      · exfalso
        rw [flushNL] at h
        split at h
        · exact List.noConfusion h
        · have := congrArg List.length h
          simp at this
          omega
      · rw [h]; rfl
      · rw [h]; rfl

theorem collapseNLAux_zero_head? (l : List Char) :
    (collapseNLAux 0 l).head? = l.head? := by
  cases l with
  | nil => rfl
  | cons d rest =>
    by_cases hd : isNL d = true
    · rw [collapseNLAux, if_pos hd, collapseNLAux_head?_pos rest 1 le_rfl]
      have : d = '\n' := by simpa [isNL] using hd
      rw [this]; rfl
    · rw [collapseNLAux, if_neg hd]
      have h0 : flushNL 0 = [] := rfl
      rw [h0]; rfl

theorem noTripleNL_collapseNLAux :
    ∀ (l : List Char) (n : Nat), NoTripleNL (collapseNLAux n l)
  | [], n => by
    rcases flushNL_cases n with h | h | h <;> rw [collapseNLAux, h] <;> trivial
  | d :: rest, n => by
    by_cases hd : isNL d = true
    · rw [collapseNLAux, if_pos hd]
      exact noTripleNL_collapseNLAux rest (n + 1)
    · rw [collapseNLAux, if_neg hd]
      have hdn : d ≠ '\n' := by simpa [isNL] using hd
      have base : NoTripleNL (d :: collapseNLAux 0 rest) :=
        noTripleNL_cons.2
          ⟨fun b c r hb => fun hand => hdn hand.1, noTripleNL_collapseNLAux rest 0⟩
      rcases flushNL_cases n with h | h | h <;> rw [h]
      · simpa using base
      · simp only [List.cons_append, List.nil_append]
        exact noTripleNL_cons.2
          ⟨fun b c r hb => by
            injection hb with h1 h2
            exact fun hand => hdn (h1 ▸ hand.2.1), base⟩
      · simp only [List.cons_append, List.nil_append]
        refine noTripleNL_cons.2 ⟨fun b c r hb => ?_, ?_⟩
        · injection hb with h1 h2
          injection h2 with h3 h4
          exact fun hand => hdn (h3 ▸ hand.2.2)
        · exact noTripleNL_cons.2
            ⟨fun b c r hb => by
              injection hb with h1 h2
              exact fun hand => hdn (h1 ▸ hand.2.1), base⟩

theorem noAdjST_flushNL_append {n : Nat} {l : List Char} (h : NoAdjST l) :
    NoAdjST (flushNL n ++ l) := by
  have hnl : isSpaceTab '\n' = false := by decide
  rcases flushNL_cases n with h' | h' | h' <;> rw [h']
  · simpa using h
  · simp only [List.cons_append, List.nil_append]
    exact noAdjST_cons.2 ⟨fun c hc hand => by rw [hnl] at hand; exact Bool.noConfusion hand.1, h⟩
  · simp only [List.cons_append, List.nil_append]
    refine noAdjST_cons.2 ⟨fun c hc hand => by rw [hnl] at hand; exact Bool.noConfusion hand.1, ?_⟩
    exact noAdjST_cons.2 ⟨fun c hc hand => by rw [hnl] at hand; exact Bool.noConfusion hand.1, h⟩

theorem noAdjST_collapseNLAux :
    ∀ (l : List Char) (n : Nat), NoAdjST l → NoAdjST (collapseNLAux n l)
  | [], n, _ => by
    have : NoAdjST ([] : List Char) := trivial
    simpa [collapseNLAux] using noAdjST_flushNL_append (n := n) this
  | d :: rest, n, h => by
    by_cases hd : isNL d = true
    · rw [collapseNLAux, if_pos hd]
      exact noAdjST_collapseNLAux rest (n + 1) h.tail_adj
    · rw [collapseNLAux, if_neg hd]
      refine noAdjST_flushNL_append ?_
      refine noAdjST_cons.2 ⟨fun c hc hand => ?_, noAdjST_collapseNLAux rest 0 h.tail_adj⟩
      rw [collapseNLAux_zero_head? rest] at hc
      exact (noAdjST_cons.1 h).1 c hc hand

theorem collapseNLAux_zero_id :
    ∀ (l : List Char), NoTripleNL l → collapseNLAux 0 l = l
  | [], _ => rfl
  | d :: rest, h => by
    by_cases hd : isNL d = true
    · have hdn : d = '\n' := by simpa [isNL] using hd
      subst hdn
      rw [collapseNLAux, if_pos hd]
      cases rest with
      | nil => rfl
      | cons e r' =>
        by_cases he : isNL e = true
        · have hen : e = '\n' := by simpa [isNL] using he
          subst hen
          rw [collapseNLAux, if_pos he]
          cases r' with
          | nil => rfl
          | cons f r'' =>
            by_cases hf : isNL f = true
            · exfalso
              have hfn : f = '\n' := by simpa [isNL] using hf
              exact (noTripleNL_cons.1 h).1 '\n' f r'' rfl ⟨rfl, rfl, hfn⟩
            · rw [collapseNLAux, if_neg hf,
                collapseNLAux_zero_id r'' h.tail_nl.tail_nl.tail_nl]
              rfl
        · rw [collapseNLAux, if_neg he, collapseNLAux_zero_id r' h.tail_nl.tail_nl]
          rfl
    · rw [collapseNLAux, if_neg hd, collapseNLAux_zero_id rest h.tail_nl]
      rfl
termination_by l => l.length

/-! ## Idempotence of `cleanText` -/

theorem cleanText_invariants (l : List Char) :
    '\r' ∉ cleanText l ∧ '\t' ∉ cleanText l ∧ NoAdjST (cleanText l) ∧
      NoTripleNL (cleanText l) := by
  have hmid : cleanText l =
      jsTrim (collapseNewlines (collapseSpaces (replCR (replCRLF l)))) := rfl
  set mid := collapseNewlines (collapseSpaces (replCR (replCRLF l))) with hmiddef
  refine ⟨?_, ?_, ?_, ?_⟩
  · intro hr
    have h1 := mem_jsTrim (hmid ▸ hr)
    rcases mem_collapseNLAux _ 0 _ h1 with h2 | h2
    · exact absurd h2 (by decide)
    · rcases mem_collapseSpacesAux _ false _ h2 with h3 | h3
      · exact absurd h3 (by decide)
      · exact not_mem_replCR _ h3
  · intro ht
    have h1 := mem_jsTrim (hmid ▸ ht)
    rcases mem_collapseNLAux _ 0 _ h1 with h2 | h2
    · exact absurd h2 (by decide)
    · exact not_tab_collapseSpacesAux _ false h2
  · exact (noAdjST_collapseNLAux _ 0 (noAdjST_collapseSpacesAux _ false)).within_adj
      (hmid ▸ jsTrim_within mid)
  · exact (noTripleNL_collapseNLAux _ 0).within_nl (hmid ▸ jsTrim_within mid)

theorem cleanText_idem (l : List Char) : cleanText (cleanText l) = cleanText l := by
  obtain ⟨hR, hT, hAdj, hNT⟩ := cleanText_invariants l
  show jsTrim (collapseNewlines (collapseSpaces (replCR (replCRLF (cleanText l)))))
    = cleanText l
  rw [replCRLF_eq_self _ hR, replCR_eq_self hR]
  show jsTrim (collapseNLAux 0 (collapseSpacesAux false (cleanText l))) = cleanText l
  rw [collapseSpacesAux_false_eq_self _ hT hAdj, collapseNLAux_zero_id _ hNT]
  exact jsTrim_idem _

/-! ## Bounds on the sentence-boundary search -/

theorem lastIndexOfFrom_le {s pat : List Char} {fromIdx i : Nat}
    (h : lastIndexOfFrom s pat fromIdx = some i) : i ≤ fromIdx := by
  have hmem := List.mem_of_find?_eq_some h
  rw [List.mem_reverse, List.mem_range] at hmem
  omega

theorem lastIndexOfFrom_isPrefixOf {s pat : List Char} {fromIdx i : Nat}
    (h : lastIndexOfFrom s pat fromIdx = some i) :
    pat.isPrefixOf (s.drop i) = true := by
  rw [lastIndexOfFrom] at h
  exact List.find?_some (p := fun j => pat.isPrefixOf (List.drop j s)) h

theorem lastIndexOfFrom_add_length_le {s pat : List Char} {fromIdx i : Nat}
    (hpat : 0 < pat.length) (h : lastIndexOfFrom s pat fromIdx = some i) :
    i + pat.length ≤ s.length := by
  have hpre := List.isPrefixOf_iff_prefix.1 (lastIndexOfFrom_isPrefixOf h)
  have hp := hpre.length_le
  rw [List.length_drop] at hp
  omega

theorem fse_fold_bounds :
    ∀ (enders : List (List Char)) (acc : Option (Nat × Nat))
      (ss tg fi : Nat) (st : List Char),
      (∀ e ∈ enders, e.length = 2) →
      (∀ bp d, acc = some (bp, d) →
        ss + 2 ≤ bp ∧ bp ≤ ss + fi + 2 ∧ bp ≤ ss + st.length) →
      ∀ bp d, enders.foldl (fseStep ss tg fi st) acc = some (bp, d) →
        ss + 2 ≤ bp ∧ bp ≤ ss + fi + 2 ∧ bp ≤ ss + st.length
  | [], acc, ss, tg, fi, st => fun _ hacc bp d h => hacc bp d h
  | e :: rest, acc, ss, tg, fi, st => by
    intro hlen hacc bp d h
    refine fse_fold_bounds rest _ ss tg fi st (fun e' he' => hlen e' (List.mem_cons_of_mem e he'))
      ?_ bp d h
    intro bp' d' hstep
    rw [fseStep] at hstep
    rcases hpos : lastIndexOfFrom st e fi with _ | pos <;> rw [hpos] at hstep
    · exact hacc bp' d' hstep
    · have hple := lastIndexOfFrom_le hpos
      have he2 : e.length = 2 := hlen e (List.mem_cons_self e rest)
      have hsl := lastIndexOfFrom_add_length_le (by omega) hpos
      rw [he2] at hsl
      rcases hacc2 : acc with _ | ⟨bp2, md2⟩ <;> rw [hacc2] at hstep
      · simp only [Option.some.injEq, Prod.mk.injEq] at hstep
        rw [← hstep.1, he2]
        omega
      · by_cases hlt : (max (ss + pos + e.length) tg - min (ss + pos + e.length) tg) < md2 <;>
          simp only [hlt, if_pos, if_neg, Option.some.injEq, Prod.mk.injEq, not_false_iff] at hstep
        · rw [← hstep.1, he2]
          omega
        · obtain ⟨h1, h2, h3⟩ := hacc bp2 md2 hacc2
          exact ⟨hstep.1 ▸ h1, hstep.1 ▸ h2, hstep.1 ▸ h3⟩

theorem findSentenceEnd_cases (text : List Char) (start : Nat)
    (_hwin : start + 1000 < text.length) :
    findSentenceEnd text start (start + 1000) = start + 1000 ∨
      (start + 802 ≤ findSentenceEnd text start (start + 1000) ∧
        findSentenceEnd text start (start + 1000) ≤ start + 1002 ∧
        findSentenceEnd text start (start + 1000) ≤ text.length) := by
  rw [findSentenceEnd]
  rcases hfold : sentenceEnders.foldl
      (fseStep (max start (start + 1000 - 200)) (start + 1000)
        (start + 1000 - max start (start + 1000 - 200))
        (substring text (max start (start + 1000 - 200))
          (min text.length (start + 1000 + 100)))) none with _ | ⟨bp, d⟩
  · dsimp only
    exact Or.inl rfl
  · dsimp only
    have hb := fse_fold_bounds sentenceEnders none _ _ _ _
      (by intro e he; fin_cases he <;> rfl)
      (by intro bp' d' h; exact Option.noConfusion h) bp d hfold
    have hstlen : (substring text (max start (start + 1000 - 200))
        (min text.length (start + 1000 + 100))).length ≤
        text.length - max start (start + 1000 - 200) := by
      rw [substring, List.length_take, List.length_drop]
      omega
    by_cases hgt : bp > start
    · rw [if_pos hgt]
      exact Or.inr ⟨by omega, by omega, by omega⟩
    · rw [if_neg hgt]
      exact Or.inl rfl

/-- Default-parameter bounds for the loop's cut point: when the window does
not reach the end of the text the cut lands in `[start+802, start+1002]`,
and otherwise it is exactly the end of the text. -/
theorem chunkEnd_bounds (cleaned : List Char) (start : Nat)
    (hlt : start < cleaned.length) :
    (cleaned.length ≤ start + 1000 ∧ chunkEnd cleaned 1000 start = cleaned.length) ∨
      (start + 1000 < cleaned.length ∧
        start + 802 ≤ chunkEnd cleaned 1000 start ∧
        chunkEnd cleaned 1000 start ≤ start + 1002 ∧
        chunkEnd cleaned 1000 start ≤ cleaned.length) := by
  rw [chunkEnd]
  by_cases hsmall : cleaned.length ≤ start + 1000
  · have hmin : min (start + 1000) cleaned.length = cleaned.length := by omega
    rw [hmin, if_neg (by omega)]
    exact Or.inl ⟨hsmall, rfl⟩
  · have hmin : min (start + 1000) cleaned.length = start + 1000 := by omega
    rw [hmin, if_pos (by omega)]
    rcases findSentenceEnd_cases cleaned start (by omega) with h | h
    · rw [h]
      by_cases hgt : start + 1000 > start
      · rw [if_pos hgt]
        exact Or.inr ⟨by omega, by omega, by omega, by omega⟩
      · omega
    · by_cases hgt : findSentenceEnd cleaned start (start + 1000) > start
      · rw [if_pos hgt]
        exact Or.inr ⟨by omega, h.1, h.2.1, h.2.2⟩
      · rw [if_neg hgt]
        exact Or.inr ⟨by omega, by omega, by omega, by omega⟩

/-- The cut point always advances past the cursor. -/
theorem chunkEnd_gt (cleaned : List Char) (start : Nat)
    (hlt : start < cleaned.length) : start < chunkEnd cleaned 1000 start := by
  rcases chunkEnd_bounds cleaned start hlt with ⟨_, h⟩ | ⟨_, h, _⟩ <;> omega

/-! ## More facts about `jsTrim` and `substring` -/

theorem jsTrim_length_le (l : List Char) : (jsTrim l).length ≤ l.length :=
  (jsTrim_within l).sublist.length_le

theorem substring_length_le (l : List Char) (a b : Nat) :
    (substring l a b).length ≤ b - a := by
  rw [substring, List.length_take]
  omega

theorem jsTrim_eq_nil_imp {l : List Char} (h : jsTrim l = []) :
    ∀ c ∈ l, isJsWhitespace c = true := by
  intro c hc
  rw [jsTrim, List.reverse_eq_nil_iff, List.dropWhile_eq_nil_iff] at h
  rw [← List.takeWhile_append_dropWhile isJsWhitespace l] at hc
  rcases List.mem_append.1 hc with hc' | hc'
  · exact List.mem_takeWhile_imp hc'
  · exact h c (List.mem_reverse.2 hc')

theorem jsTrim_ne_nil {c : Char} {l : List Char} (hc : c ∈ l)
    (hw : isJsWhitespace c = false) : jsTrim l ≠ [] := fun h => by
  rw [jsTrim_eq_nil_imp h c hc] at hw
  exact Bool.noConfusion hw

theorem substring_to_length (l : List Char) (a : Nat) :
    substring l a l.length = l.drop a := by
  rw [substring]
  exact List.take_of_length_le (by rw [List.length_drop])

theorem getLast_mem_drop {l : List Char} {start : Nat} (h : start < l.length) :
    ∃ c, l.getLast? = some c ∧ c ∈ l.drop start := by
  have hne : l.drop start ≠ [] := by
    intro hnil
    have := congrArg List.length hnil
    rw [List.length_drop] at this
    simp at this
    omega
  have hdrop : (l.drop start).getLast? = l.getLast? := by
    rw [List.getLast?_drop, if_neg (by omega)]
  refine ⟨(l.drop start).getLast hne, ?_, List.getLast_mem hne⟩
  rw [← hdrop, List.getLast?_eq_getLast _ hne]

/-! ## One step of the chunk loop -/

theorem chunkStep_push {cleaned : List Char} {cs ov : Nat} {st : LoopState}
    (h : 0 < (jsTrim (substring cleaned st.startChar (chunkEnd cleaned cs st.startChar))).length) :
    chunkStep cleaned cs ov st =
      ⟨if chunkEnd cleaned cs st.startChar - ov ≤ st.startChar
          then chunkEnd cleaned cs st.startChar
          else chunkEnd cleaned cs st.startChar - ov,
        st.chunkIndex + 1,
        st.chunks ++
          [⟨jsTrim (substring cleaned st.startChar (chunkEnd cleaned cs st.startChar)),
            st.chunkIndex, st.startChar, chunkEnd cleaned cs st.startChar⟩]⟩ := by
  simp only [chunkStep, gt_iff_lt, h, if_true, List.getLast?_concat]

theorem chunkStep_nopush {cleaned : List Char} {cs ov : Nat} {st : LoopState}
    (h : (jsTrim (substring cleaned st.startChar (chunkEnd cleaned cs st.startChar))).length = 0) :
    chunkStep cleaned cs ov st =
      ⟨match st.chunks.getLast? with
        | some c =>
          if chunkEnd cleaned cs st.startChar - ov ≤ c.startChar
            then chunkEnd cleaned cs st.startChar
            else chunkEnd cleaned cs st.startChar - ov
        | none => chunkEnd cleaned cs st.startChar - ov,
        st.chunkIndex, st.chunks⟩ := by
  simp only [chunkStep, gt_iff_lt, h, if_false, Nat.lt_irrefl]

theorem chunkEnd_le {cleaned : List Char} {start : Nat}
    (hg : start < cleaned.length) : chunkEnd cleaned 1000 start ≤ cleaned.length := by
  rcases chunkEnd_bounds cleaned start hg with ⟨_, he⟩ | ⟨_, _, _, he⟩ <;> omega

/-- When the window reaches the end of the text the trimmed slice is
nonempty, because the normalized text ends in a non-whitespace character. -/
theorem chunkStep_forced_push {cleaned : List Char} {st : LoopState}
    (hlast : ∀ c, cleaned.getLast? = some c → isJsWhitespace c = false)
    (hg : st.startChar < cleaned.length)
    (he : chunkEnd cleaned 1000 st.startChar = cleaned.length) :
    0 < (jsTrim (substring cleaned st.startChar
      (chunkEnd cleaned 1000 st.startChar))).length := by
  rw [he, substring_to_length]
  obtain ⟨c, hc, hcm⟩ := getLast_mem_drop hg
  exact List.length_pos.2 (jsTrim_ne_nil hcm (hlast c hc))

/-- Cursor value after an iteration whose window reaches the end of the
text: the loop pushes the tail chunk and either stops (cursor forced to
the end) or backs up exactly `overlap` characters. -/
theorem chunkStep_tail {cleaned : List Char} {st : LoopState}
    (hlast : ∀ c, cleaned.getLast? = some c → isJsWhitespace c = false)
    (hg : st.startChar < cleaned.length)
    (hsm : cleaned.length ≤ st.startChar + 1000) :
    (chunkStep cleaned 1000 200 st).startChar = cleaned.length ∨
      ((chunkStep cleaned 1000 200 st).startChar = cleaned.length - 200 ∧
        st.startChar < cleaned.length - 200) := by
  rcases chunkEnd_bounds cleaned st.startChar hg with ⟨_, he⟩ | ⟨hbig, _⟩
  · rw [chunkStep_push (chunkStep_forced_push hlast hg he)]
    dsimp only
    by_cases hc : chunkEnd cleaned 1000 st.startChar - 200 ≤ st.startChar
    · rw [if_pos hc, he]
      exact Or.inl rfl
    · rw [if_neg hc, he]
      exact Or.inr ⟨rfl, by omega⟩
  · omega

/-- Cursor advance when the window does not reach the end of the text. -/
theorem chunkStep_advance {cleaned : List Char} {st : LoopState}
    (hg : st.startChar < cleaned.length)
    (hbig : st.startChar + 1000 < cleaned.length) :
    st.startChar + 602 ≤ (chunkStep cleaned 1000 200 st).startChar := by
  rcases chunkEnd_bounds cleaned st.startChar hg with ⟨hsm, _⟩ | ⟨_, h1, h2, h3⟩
  · omega
  · by_cases hp : 0 < (jsTrim (substring cleaned st.startChar
        (chunkEnd cleaned 1000 st.startChar))).length
    · rw [chunkStep_push hp]
      dsimp only
      by_cases hc : chunkEnd cleaned 1000 st.startChar - 200 ≤ st.startChar
      · omega
      · rw [if_neg hc]
        omega
    · rw [chunkStep_nopush (by omega)]
      dsimp only
      rcases hgl : st.chunks.getLast? with _ | c <;> dsimp only
      · omega
      · by_cases hc : chunkEnd cleaned 1000 st.startChar - 200 ≤ c.startChar
        · rw [if_pos hc]
          omega
        · rw [if_neg hc]
          omega

/-- The cursor strictly advances in every iteration (default parameters,
trimmed text). -/
theorem chunkStep_start_lt {cleaned : List Char} {st : LoopState}
    (hlast : ∀ c, cleaned.getLast? = some c → isJsWhitespace c = false)
    (hg : st.startChar < cleaned.length) :
    st.startChar < (chunkStep cleaned 1000 200 st).startChar := by
  by_cases hbig : st.startChar + 1000 < cleaned.length
  · have := chunkStep_advance hg hbig
    omega
  · rcases chunkStep_tail hlast hg (by omega) with h | ⟨h1, h2⟩ <;> omega

theorem chunkLoop_isSome {cleaned : List Char}
    (hlast : ∀ c, cleaned.getLast? = some c → isJsWhitespace c = false) :
    ∀ (fuel : Nat) (st : LoopState), 1 ≤ fuel →
      cleaned.length + 1 - st.startChar ≤ fuel →
      ∃ out, chunkLoop cleaned 1000 200 fuel st = some out := by
  intro fuel
  induction fuel with
  | zero => intro st h1 _; omega
  | succ f ih =>
    intro st _ hf
    rw [chunkLoop]
    by_cases hg : st.startChar < cleaned.length
    · rw [if_pos hg]
      have hprog := chunkStep_start_lt hlast hg
      exact ih _ (by omega) (by omega)
    · rw [if_neg hg]
      exact ⟨st.chunks, rfl⟩

theorem chunkLoop_mono {cleaned : List Char} {cs ov : Nat} :
    ∀ (f f' : Nat) (st : LoopState) (out : List TextChunk), f ≤ f' →
      chunkLoop cleaned cs ov f st = some out →
      chunkLoop cleaned cs ov f' st = some out := by
  intro f
  induction f with
  | zero =>
    intro f' st out _ h
    rw [chunkLoop] at h
    exact Option.noConfusion h
  | succ f ih =>
    intro f' st out hle h
    rcases f' with _ | f''
    · omega
    · rw [chunkLoop] at h ⊢
      by_cases hg : st.startChar < cleaned.length
      · rw [if_pos hg] at h ⊢
        exact ih f'' _ _ (by omega) h
      · rw [if_neg hg] at h ⊢
        exact h

theorem chunkLoop_tail200 {cleaned : List Char}
    (hlast : ∀ c, cleaned.getLast? = some c → isJsWhitespace c = false)
    (hlen : 1000 < cleaned.length) :
    ∀ (fuel : Nat) (st : LoopState), 2 ≤ fuel →
      st.startChar = cleaned.length - 200 →
      ∃ out, chunkLoop cleaned 1000 200 fuel st = some out := by
  intro fuel st hf hst
  rcases fuel with _ | f
  · omega
  · rw [chunkLoop, if_pos (by omega)]
    rcases @chunkStep_tail cleaned st hlast (by omega) (by omega) with h | ⟨h1, h2⟩
    · exact chunkLoop_isSome hlast f _ (by omega) (by omega)
    · omega

theorem chunkLoop_fuel_strong {cleaned : List Char}
    (hlast : ∀ c, cleaned.getLast? = some c → isJsWhitespace c = false)
    (hlen : 1000 < cleaned.length) :
    ∀ (fuel : Nat) (st : LoopState), st.startChar < cleaned.length →
      (cleaned.length - st.startChar - 1) / 602 + 3 ≤ fuel →
      ∃ out, chunkLoop cleaned 1000 200 fuel st = some out := by
  intro fuel
  induction fuel with
  | zero => intro st _ h; omega
  | succ f ih =>
    intro st hg hf
    rw [chunkLoop, if_pos hg]
    by_cases hbig : st.startChar + 1000 < cleaned.length
    · have hadv := chunkStep_advance hg hbig
      by_cases hslt : (chunkStep cleaned 1000 200 st).startChar < cleaned.length
      · exact ih _ hslt (by omega)
      · exact chunkLoop_isSome hlast f _ (by omega) (by omega)
    · rcases chunkStep_tail hlast hg (by omega) with h | ⟨h1, h2⟩
      · exact chunkLoop_isSome hlast f _ (by omega) (by omega)
      · exact chunkLoop_tail200 hlast hlen f _ (by omega) h1

/-! ## What the loop accumulates -/

/-- Each iteration either leaves the accumulated chunks unchanged or
appends exactly the freshly trimmed slice, carrying the running index. -/
theorem chunkStep_chunks_cases (cleaned : List Char) (cs ov : Nat) (st : LoopState) :
    ((chunkStep cleaned cs ov st).chunks = st.chunks ∧
      (chunkStep cleaned cs ov st).chunkIndex = st.chunkIndex) ∨
      ((chunkStep cleaned cs ov st).chunks = st.chunks ++
        [⟨jsTrim (substring cleaned st.startChar (chunkEnd cleaned cs st.startChar)),
          st.chunkIndex, st.startChar, chunkEnd cleaned cs st.startChar⟩] ∧
        (chunkStep cleaned cs ov st).chunkIndex = st.chunkIndex + 1) := by
  by_cases hp : 0 < (jsTrim (substring cleaned st.startChar
      (chunkEnd cleaned cs st.startChar))).length
  · rw [chunkStep_push hp]
    exact Or.inr ⟨rfl, rfl⟩
  · rw [chunkStep_nopush (by omega)]
    exact Or.inl ⟨rfl, rfl⟩

theorem chunkLoop_length_le {cleaned : List Char} {cs ov : Nat} :
    ∀ (fuel : Nat) (st : LoopState) (out : List TextChunk),
      chunkLoop cleaned cs ov fuel st = some out →
      out.length ≤ st.chunks.length + fuel := by
  intro fuel
  induction fuel with
  | zero =>
    intro st out h
    rw [chunkLoop] at h
    exact Option.noConfusion h
  | succ f ih =>
    intro st out h
    rw [chunkLoop] at h
    by_cases hg : st.startChar < cleaned.length
    · rw [if_pos hg] at h
      have hle := ih _ _ h
      rcases chunkStep_chunks_cases cleaned cs ov st with ⟨hc, _⟩ | ⟨hc, _⟩
      · rw [hc] at hle
        omega
      · rw [hc, List.length_append, List.length_cons, List.length_nil] at hle
        omega
    · rw [if_neg hg] at h
      injection h with h
      rw [← h]
      omega

/-- Size invariant for C10: every pushed chunk is at most `1002`
characters long (default parameters). -/
theorem chunkLoop_sizes {cleaned : List Char} :
    ∀ (fuel : Nat) (st : LoopState) (out : List TextChunk),
      (∀ c ∈ st.chunks, c.text.length ≤ 1002) →
      chunkLoop cleaned 1000 200 fuel st = some out →
      ∀ c ∈ out, c.text.length ≤ 1002 := by
  intro fuel
  induction fuel with
  | zero =>
    intro st out _ h
    rw [chunkLoop] at h
    exact Option.noConfusion h
  | succ f ih =>
    intro st out hinv h
    rw [chunkLoop] at h
    by_cases hg : st.startChar < cleaned.length
    · rw [if_pos hg] at h
      refine ih _ _ ?_ h
      rcases chunkStep_chunks_cases cleaned 1000 200 st with ⟨hc, _⟩ | ⟨hc, _⟩
      · rwa [hc]
      · rw [hc]
        intro c hcm
        rcases List.mem_append.1 hcm with hcm' | hcm'
        · exact hinv c hcm'
        · have hceq : c = ⟨jsTrim (substring cleaned st.startChar
              (chunkEnd cleaned 1000 st.startChar)), st.chunkIndex, st.startChar,
              chunkEnd cleaned 1000 st.startChar⟩ := by simpa using hcm'
          subst hceq
          have hlen1 := jsTrim_length_le
            (substring cleaned st.startChar (chunkEnd cleaned 1000 st.startChar))
          have hlen2 := substring_length_le cleaned st.startChar
            (chunkEnd cleaned 1000 st.startChar)
          have hbnd : chunkEnd cleaned 1000 st.startChar ≤ st.startChar + 1002 := by
            rcases chunkEnd_bounds cleaned st.startChar hg with ⟨hsm, he⟩ | ⟨_, _, hb, _⟩ <;>
              omega
          simp only
          omega
    · rw [if_neg hg] at h
      injection h with h
      exact h ▸ hinv

/-- Index invariant for C1: chunk `i` of the output carries index `i`. -/
theorem chunkLoop_indexes {cleaned : List Char} {cs ov : Nat} :
    ∀ (fuel : Nat) (st : LoopState) (out : List TextChunk),
      st.chunks.map TextChunk.index = List.range st.chunks.length →
      st.chunkIndex = st.chunks.length →
      chunkLoop cleaned cs ov fuel st = some out →
      out.map TextChunk.index = List.range out.length := by
  intro fuel
  induction fuel with
  | zero =>
    intro st out _ _ h
    rw [chunkLoop] at h
    exact Option.noConfusion h
  | succ f ih =>
    intro st out hmap hidx h
    rw [chunkLoop] at h
    by_cases hg : st.startChar < cleaned.length
    · rw [if_pos hg] at h
      rcases chunkStep_chunks_cases cleaned cs ov st with ⟨hc, hi⟩ | ⟨hc, hi⟩
      · exact ih _ _ (by rw [hc]; exact hmap) (by rw [hi, hc]; exact hidx) h
      · refine ih _ _ ?_ ?_ h
        · rw [hc, List.map_append, hmap, List.length_append, hidx]
          simp [List.range_succ]
        · rw [hi, hc, List.length_append, hidx]
          simp
    · rw [if_neg hg] at h
      injection h with h
      exact h ▸ hmap

/-- The loop never exits without having pushed at least one chunk. -/
theorem chunkLoop_ne_nil {cleaned : List Char} :
    ∀ (fuel : Nat) (st : LoopState) (out : List TextChunk),
      st.startChar < cleaned.length →
      chunkLoop cleaned 1000 200 fuel st = some out → out ≠ [] := by
  intro fuel
  induction fuel with
  | zero =>
    intro st out _ h
    rw [chunkLoop] at h
    exact Option.noConfusion h
  | succ f ih =>
    intro st out hg h
    rw [chunkLoop, if_pos hg] at h
    by_cases hg2 : (chunkStep cleaned 1000 200 st).startChar < cleaned.length
    · exact ih _ _ hg2 h
    · have hout : out = (chunkStep cleaned 1000 200 st).chunks := by
        rcases f with _ | f'
        · rw [chunkLoop] at h
          exact Option.noConfusion h
        · rw [chunkLoop, if_neg hg2] at h
          injection h with h
          exact h.symm
      subst hout
      by_cases hp : 0 < (jsTrim (substring cleaned st.startChar
          (chunkEnd cleaned 1000 st.startChar))).length
      · rw [chunkStep_push hp]
        simp
      · rcases hne : st.chunks with _ | ⟨c0, rest⟩
        · exfalso
          rw [chunkStep_nopush (by omega)] at hg2
          rw [hne] at hg2
          simp only [List.getLast?_nil] at hg2
          have hele := chunkEnd_le hg
          omega
        · rw [chunkStep_nopush (by omega)]
          dsimp only
          rw [hne]
          simp

/-! ## `chunkText`-level consequences -/

theorem cleanText_getLast? (l : List Char) :
    ∀ c, (cleanText l).getLast? = some c → isJsWhitespace c = false :=
  fun c h => jsTrim_getLast? (collapseNewlines (collapseSpaces (replCR (replCRLF l)))) c h

theorem chunkText_short {s : List Char} {cs ov : Nat}
    (h : (cleanText s).length ≤ cs) :
    chunkText s cs ov = some [⟨cleanText s, 0, 0, (cleanText s).length⟩] := by
  simp only [chunkText]
  rw [if_pos h]

theorem chunkText_long {s : List Char} (h : 1000 < (cleanText s).length) :
    chunkText s 1000 200 =
      chunkLoop (cleanText s) 1000 200 ((cleanText s).length + 1) ⟨0, 0, []⟩ := by
  simp only [chunkText]
  rw [if_neg (by omega)]

theorem chunkText_some_of_long {s : List Char} (h : 1000 < (cleanText s).length) :
    ∃ out, chunkText s 1000 200 = some out ∧
      out.length ≤ (cleanText s).length / 602 + 3 := by
  obtain ⟨out, hout⟩ := chunkLoop_fuel_strong (cleanText_getLast? s) h
    (((cleanText s).length - 1) / 602 + 3) ⟨0, 0, []⟩
    (by change 0 < (cleanText s).length; omega) le_rfl
  have hmono := chunkLoop_mono _ ((cleanText s).length + 1) _ out (by omega) hout
  have hlen := chunkLoop_length_le _ _ _ hout
  refine ⟨out, ?_, by simp only [List.length_nil] at hlen; omega⟩
  rw [chunkText_long h]
  exact hmono

theorem chunkText_total (s : List Char) :
    ∃ out, chunkText s 1000 200 = some out ∧
      out.length ≤ (cleanText s).length / 602 + 3 := by
  by_cases h : (cleanText s).length ≤ 1000
  · exact ⟨_, chunkText_short h, by simp⟩
  · exact chunkText_some_of_long (by omega)

theorem chunkText_sizes {s : List Char} {out : List TextChunk}
    (h : chunkText s 1000 200 = some out) :
    ∀ c ∈ out, c.text.length ≤ 1002 := by
  by_cases hs : (cleanText s).length ≤ 1000
  · rw [chunkText_short hs] at h
    injection h with h
    intro c hc
    rw [← h] at hc
    have : c = ⟨cleanText s, 0, 0, (cleanText s).length⟩ := by simpa using hc
    subst this
    simpa using (by omega : (cleanText s).length ≤ 1002)
  · rw [chunkText_long (by omega)] at h
    exact chunkLoop_sizes _ _ _ (by intro c hc; exact absurd hc (List.not_mem_nil c)) h

theorem chunkText_indexes {s : List Char} {out : List TextChunk}
    (h : chunkText s 1000 200 = some out) :
    out.map TextChunk.index = List.range out.length := by
  by_cases hs : (cleanText s).length ≤ 1000
  · rw [chunkText_short hs] at h
    injection h with h
    rw [← h]
    rfl
  · rw [chunkText_long (by omega)] at h
    exact chunkLoop_indexes _ _ _ (by simp) (by simp) h

theorem chunkText_ne_nil {s : List Char} {out : List TextChunk}
    (h : chunkText s 1000 200 = some out) : out ≠ [] := by
  by_cases hs : (cleanText s).length ≤ 1000
  · rw [chunkText_short hs] at h
    injection h with h
    rw [← h]
    simp
  · rw [chunkText_long (by omega)] at h
    exact chunkLoop_ne_nil _ _ _ (by change 0 < (cleanText s).length; omega) h

/-! ## `Except`-valued `mapM` -/

theorem mapM'_except_ok {α β ε : Type} (f : α → Except ε β) :
    ∀ (l : List α) (ys : List β), l.mapM' f = .ok ys →
      ys.length = l.length ∧
      ∀ i (h1 : i < l.length) (h2 : i < ys.length), f l[i] = .ok ys[i]
  | [], ys => by
    intro h
    simp only [List.mapM', pure, Except.pure] at h
    injection h with h
    subst h
    exact ⟨rfl, fun i h1 _ => absurd h1 (by simp)⟩
  | a :: as, ys => by
    intro h
    simp only [List.mapM'] at h
    rcases hfa : f a with e | b <;> rw [hfa] at h
    · exact Except.noConfusion h
    · rcases hrest : as.mapM' f with e | bs <;> rw [hrest] at h <;>
        simp only [bind, Except.bind] at h
      · exact Except.noConfusion h
      · simp only [pure, Except.pure] at h
        injection h with h
        subst h
        obtain ⟨hlen, hpt⟩ := mapM'_except_ok f as bs hrest
        refine ⟨by simp [hlen], ?_⟩
        intro i h1 h2
        cases i with
        | zero => simpa using hfa
        | succ j =>
          simp only [List.getElem_cons_succ]
          exact hpt j (by simpa using h1) (by simpa using h2)

theorem mapM'_except_error_head {α β ε : Type} (f : α → Except ε β) (a : α)
    (as : List α) {e : ε} (h : f a = .error e) :
    (a :: as).mapM' f = .error e := by
  simp only [List.mapM', h]
  rfl

theorem mapM'_except_total {α β ε : Type} (f : α → Except ε β) :
    ∀ (l : List α), (∀ x ∈ l, ∃ y, f x = .ok y) →
      ∃ ys, l.mapM' f = .ok ys ∧ ys.length = l.length ∧
        ∀ y ∈ ys, ∃ x ∈ l, f x = .ok y
  | [] => fun _ => ⟨[], rfl, rfl, fun y hy => absurd hy (List.not_mem_nil y)⟩
  | a :: as => by
    intro hall
    obtain ⟨b, hb⟩ := hall a (List.mem_cons_self a as)
    obtain ⟨bs, hbs, hlen, hmem⟩ :=
      mapM'_except_total f as (fun x hx => hall x (List.mem_cons_of_mem a hx))
    refine ⟨b :: bs, ?_, by simp [hlen], ?_⟩
    · simp only [List.mapM', hb, hbs]
      rfl
    · intro y hy
      rcases List.mem_cons.1 hy with hy' | hy'
      · exact ⟨a, List.mem_cons_self a as, hy' ▸ hb⟩
      · obtain ⟨x, hx, hfx⟩ := hmem y hy'
        exact ⟨x, List.mem_cons_of_mem a hx, hfx⟩

theorem mapM_except_ok {α β ε : Type} (f : α → Except ε β) (l : List α)
    (ys : List β) (h : l.mapM f = .ok ys) :
    ys.length = l.length ∧
      ∀ i (h1 : i < l.length) (h2 : i < ys.length), f l[i] = .ok ys[i] :=
  mapM'_except_ok f l ys (by rw [List.mapM'_eq_mapM]; exact h)

theorem mapM_except_error_head {α β ε : Type} (f : α → Except ε β) (a : α)
    (as : List α) {e : ε} (h : f a = .error e) :
    (a :: as).mapM f = .error e := by
  rw [← List.mapM'_eq_mapM]
  exact mapM'_except_error_head f a as h

theorem mapM_except_total {α β ε : Type} (f : α → Except ε β) (l : List α)
    (hall : ∀ x ∈ l, ∃ y, f x = .ok y) :
    ∃ ys, l.mapM f = .ok ys ∧ ys.length = l.length ∧
      ∀ y ∈ ys, ∃ x ∈ l, f x = .ok y := by
  obtain ⟨ys, h1, h2, h3⟩ := mapM'_except_total f l hall
  exact ⟨ys, by rw [← List.mapM'_eq_mapM]; exact h1, h2, h3⟩

/-! ## Cosine similarity (C8) -/

theorem cosineSimilarity_dim {a b : List ℝ} (h : a.length ≠ b.length) :
    cosineSimilarity a b = .error "Vectors must have the same dimension" := by
  simp only [cosineSimilarity]
  rw [if_pos h]

theorem cosineSimilarity_bounded {a b : List ℝ} (h : a.length = b.length) :
    ∃ r, cosineSimilarity a b = .ok r ∧ -1 ≤ r ∧ r ≤ 1 := by
  simp only [cosineSimilarity]
  rw [if_neg (by simp [h])]
  by_cases h0 : a.length = 0
  · rw [if_pos h0]
    exact ⟨0, rfl, by norm_num, by norm_num⟩
  · rw [if_neg h0]
    by_cases hz : Real.sqrt (∑ i in Finset.range a.length, a.getD i 0 * a.getD i 0) = 0 ∨
        Real.sqrt (∑ i in Finset.range a.length, b.getD i 0 * b.getD i 0) = 0
    · rw [if_pos hz]
      exact ⟨0, rfl, by norm_num, by norm_num⟩
    · rw [if_neg hz]
      push_neg at hz
      set D := ∑ i in Finset.range a.length, a.getD i 0 * b.getD i 0 with hD
      set A := ∑ i in Finset.range a.length, a.getD i 0 * a.getD i 0 with hA
      set B := ∑ i in Finset.range a.length, b.getD i 0 * b.getD i 0 with hB
      have hA0 : 0 ≤ A := Finset.sum_nonneg fun i _ => mul_self_nonneg _
      have hsA : 0 < Real.sqrt A :=
        lt_of_le_of_ne (Real.sqrt_nonneg _) (Ne.symm hz.1)
      have hsB : 0 < Real.sqrt B :=
        lt_of_le_of_ne (Real.sqrt_nonneg _) (Ne.symm hz.2)
      have hcs : D ^ 2 ≤ A * B := by
        have key := Finset.sum_mul_sq_le_sq_mul_sq (Finset.range a.length)
          (fun i => a.getD i 0) (fun i => b.getD i 0)
        have hA' : (∑ i in Finset.range a.length, (a.getD i 0) ^ 2) = A :=
          Finset.sum_congr rfl fun i _ => pow_two _
        have hB' : (∑ i in Finset.range a.length, (b.getD i 0) ^ 2) = B :=
          Finset.sum_congr rfl fun i _ => pow_two _
        rwa [hA', hB'] at key
      have habs : |D| ≤ Real.sqrt A * Real.sqrt B := by
        calc |D| = Real.sqrt (D ^ 2) := (Real.sqrt_sq_eq_abs D).symm
          _ ≤ Real.sqrt (A * B) := Real.sqrt_le_sqrt hcs
          _ = Real.sqrt A * Real.sqrt B := Real.sqrt_mul hA0 B
      have hpos : 0 < Real.sqrt A * Real.sqrt B := mul_pos hsA hsB
      have hble : |D / (Real.sqrt A * Real.sqrt B)| ≤ 1 := by
        rw [abs_div, abs_of_pos hpos]
        exact (div_le_one hpos).2 habs
      obtain ⟨hl, hr⟩ := abs_le.1 hble
      exact ⟨_, rfl, hl, hr⟩

theorem cosineSimilarity_zero {a b : List ℝ} (h : a.length = b.length)
    (hz : a.length = 0 ∨
      Real.sqrt (∑ i in Finset.range a.length, a.getD i 0 * a.getD i 0) = 0 ∨
      Real.sqrt (∑ i in Finset.range a.length, b.getD i 0 * b.getD i 0) = 0) :
    cosineSimilarity a b = .ok 0 := by
  simp only [cosineSimilarity]
  rw [if_neg (by simp [h])]
  by_cases h0 : a.length = 0
  · rw [if_pos h0]
  · rw [if_neg h0, if_pos (by tauto)]

/-! ## Top-K similarity search (C9) -/

theorem findTopKSimilar_spec {α : Type} (q : List ℝ) (items : List (EmbeddedItem α))
    (k : Nat)
    (hdim : ∀ it ∈ items, 0 < it.embedding.length → it.embedding.length = q.length) :
    ∃ out, findTopKSimilar q items k = .ok out ∧
      out.length = min k (items.filter fun it => it.embedding.length > 0).length ∧
      List.Sorted (fun x y : EmbeddedItem α × ℝ => y.2 ≤ x.2) out ∧
      ∀ x ∈ out, cosineSimilarity q x.1.embedding = .ok x.2 := by
  have hall : ∀ it ∈ (items.filter fun it => it.embedding.length > 0),
      ∃ y, ((cosineSimilarity q it.embedding).map fun s => (it, s)) = .ok y := by
    intro it hit
    have hmem := List.mem_filter.1 hit
    have hlen : it.embedding.length = q.length :=
      hdim it hmem.1 (by simpa using hmem.2)
    obtain ⟨r, hr, _, _⟩ := cosineSimilarity_bounded (a := q) (b := it.embedding) hlen.symm
    exact ⟨(it, r), by rw [hr]; rfl⟩
  obtain ⟨ys, hys, hlen, hmem⟩ := mapM'_except_total _ _ hall
  rw [List.mapM'_eq_mapM] at hys
  have htrans : ∀ (x y z : EmbeddedItem α × ℝ),
      decide (y.2 ≤ x.2) = true → decide (z.2 ≤ y.2) = true →
        decide (z.2 ≤ x.2) = true := by
    intro x y z hxy hyz
    simp only [decide_eq_true_eq] at hxy hyz ⊢
    exact le_trans hyz hxy
  have htotal : ∀ (x y : EmbeddedItem α × ℝ),
      (decide (y.2 ≤ x.2) || decide (x.2 ≤ y.2)) = true := by
    intro x y
    simp only [Bool.or_eq_true, decide_eq_true_eq]
    exact le_total y.2 x.2
  refine ⟨(ys.mergeSort fun x y => decide (y.2 ≤ x.2)).take k, ?_, ?_, ?_, ?_⟩
  · simp only [findTopKSimilar]
    rw [hys]
    rfl
  · rw [List.length_take, List.length_mergeSort, hlen]
  · have hsorted := List.sorted_mergeSort htrans htotal ys
    have hpw : List.Pairwise (fun x y : EmbeddedItem α × ℝ => y.2 ≤ x.2)
        (ys.mergeSort fun x y => decide (y.2 ≤ x.2)) :=
      hsorted.imp fun h => of_decide_eq_true h
    exact hpw.sublist (List.take_sublist k _)
  · intro x hx
    have hx2 : x ∈ ys := List.mem_mergeSort.1 (List.take_subset k _ hx)
    obtain ⟨it, _, hfx⟩ := hmem x hx2
    rcases hcos : cosineSimilarity q it.embedding with e | r <;> rw [hcos] at hfx
    · exact Except.noConfusion hfx
    · simp only [Except.map, Except.ok.injEq] at hfx
      rw [← hfx]
      exact hcos

/-! ## Ingestion pipeline (C1, C2) -/

theorem chunkText_index_eq {s : List Char} {out : List TextChunk}
    (h : chunkText s 1000 200 = some out) :
    ∀ i (hi : i < out.length), out[i].index = i := by
  intro i hi
  have hmap := chunkText_indexes h
  have h1 : (out.map TextChunk.index)[i]? = (List.range out.length)[i]? := by
    rw [hmap]
  rw [List.getElem?_map, List.getElem?_eq_getElem (by simpa using hi),
    List.getElem?_eq_getElem (by simpa using hi), List.getElem_range] at h1
  simpa using h1

theorem except_bind_ok {ε α β : Type} {m : Except ε α} {k : α → Except ε β} {b : β}
    (h : (m >>= k) = Except.ok b) : ∃ a, m = Except.ok a ∧ k a = Except.ok b := by
  rcases m with e | a
  · exact absurd h (by intro hh; exact Except.noConfusion hh)
  · exact ⟨a, rfl, h⟩

theorem except_bind_error_left {ε α β : Type} {m : Except ε α}
    {k : α → Except ε β} {e : ε} (h : m = Except.error e) :
    (m >>= k) = Except.error e := by
  rw [h]
  rfl

/-- Success-path characterization of `processAndSaveDocument`: what records
a successful ingestion call creates. -/
theorem processAndSaveDocument_ok {embed : List Char → Except String (List ℝ)}
    {title : String} {content : List Char} {docs : List DocRecord}
    (h : processAndSaveDocument embed title content = .ok docs) :
    (2000 < (cleanText content).length →
      ∃ chunks, chunkText (cleanText content) 1000 200 = some chunks ∧
        docs.length = chunks.length + 1 ∧
        docs.head? = some ⟨title, cleanText content, [], false, none, none,
          some chunks.length⟩ ∧
        ∀ i (hi : i < chunks.length), ∃ emb,
          embed chunks[i].text = .ok emb ∧
          docs[i + 1]? = some ⟨title ++ " (Chunk " ++ toString (i + 1) ++ "/"
              ++ toString chunks.length ++ ")",
            chunks[i].text, emb, true, some 0, some i, some chunks.length⟩) ∧
    ((cleanText content).length ≤ 2000 →
      ∃ emb, embed (cleanText content) = .ok emb ∧
        docs = [⟨title, cleanText content, emb, false, none, none, none⟩]) := by
  unfold processAndSaveDocument at h
  dsimp only at h
  by_cases hlong : 2000 < (cleanText content).length
  · rw [if_pos (by omega)] at h
    refine ⟨fun _ => ?_, fun hshort => absurd hshort (by omega)⟩
    rcases hct : chunkText (cleanText content) 1000 200 with _ | chunks <;>
      rw [hct] at h
    · exact Except.noConfusion h
    · dsimp only at h
      obtain ⟨children, hmm, hk⟩ := except_bind_ok h
      have hdocs : docs =
          { title := title, content := cleanText content, embedding := [],
            isChunk := false, parentDocumentId := none, chunkIndex := none,
            chunkCount := some chunks.length : DocRecord } :: children := by
        simpa [pure, Except.pure, eq_comm] using hk
      obtain ⟨hclen, hpt⟩ := mapM_except_ok _ _ _ hmm
      rw [List.enum_length] at hclen
      refine ⟨chunks, rfl, ?_, ?_, ?_⟩
      · rw [hdocs]
        simp [hclen]
      · rw [hdocs]
        rfl
      · intro i hi
        have hip := hpt i (by simpa [List.enum_length] using hi) (by omega)
        rw [List.getElem_enum] at hip
        rcases hemb : embed chunks[i].text with e | emb <;>
          simp only [hemb, bind, Except.bind, pure, Except.pure, Except.ok.injEq] at hip
        · exact Except.noConfusion hip
        · refine ⟨emb, rfl, ?_⟩
          rw [hdocs]
          have hidx : chunks[i].index = i := chunkText_index_eq hct i hi
          rw [List.getElem?_cons_succ, List.getElem?_eq_getElem (by omega), ← hip, hidx]
  · have hcond : ¬((cleanText content).length > 2000) := by omega
    rw [if_neg hcond] at h
    refine ⟨fun hl => absurd hl (by omega), fun _ => ?_⟩
    obtain ⟨emb, hemb, hk⟩ := except_bind_ok h
    refine ⟨emb, hemb, ?_⟩
    simpa [pure, Except.pure, eq_comm] using hk

/-- An always-failing embedding service makes every ingestion call fail:
the source re-throws embedding errors and `processAndSaveDocument` does not
catch them. -/
theorem processAndSaveDocument_embedFail {embed : List Char → Except String (List ℝ)}
    {e : String} (title : String) (content : List Char)
    (hfail : ∀ t, embed t = .error e) :
    ∃ msg, processAndSaveDocument embed title content = .error msg := by
  unfold processAndSaveDocument
  dsimp only
  by_cases hlong : 2000 < (cleanText content).length
  · rw [if_pos (by omega)]
    rcases hct : chunkText (cleanText content) 1000 200 with _ | chunks
    · exact ⟨"chunkText did not terminate", rfl⟩
    · have hne := chunkText_ne_nil hct
      obtain ⟨c0, rest, rfl⟩ : ∃ a l, chunks = a :: l := by
        cases chunks with
        | nil => exact absurd rfl hne
        | cons a l => exact ⟨a, l, rfl⟩
      refine ⟨e, ?_⟩
      dsimp only
      refine except_bind_error_left ?_
      rw [List.enum_cons]
      exact mapM_except_error_head _ _ _ (except_bind_error_left (hfail c0.text))
  · rw [if_neg (by omega)]
    exact ⟨e, except_bind_error_left (hfail (cleanText content))⟩

/-! ## Answer pipeline (C3, C4) -/

/-- Fully degraded retrieval still answers: embedding failure (or empty
vector search) plus an empty lexical fallback leaves `relevantDocs` empty,
and the request succeeds with `sources = []`. -/
theorem askQuestion_degraded {D : Type} (deps : AskDeps D) (question : String)
    (sessionId : Option String) (fresh : String) (ans : String)
    (hq1 : (jsTrim question.data).length ≠ 0)
    (hq2 : question.length ≤ 1000)
    (hemb : (∃ e, deps.embed question.data = .error e) ∨
      (∃ v, deps.embed question.data = .ok v ∧
        (0 < v.length → deps.vectorSearch v 3 = .ok [])))
    (htext : deps.textSearch question.data 3 = .ok [])
    (hgen : deps.generate question.data [] = .ok ans) :
    askQuestion deps question sessionId fresh =
      .success ans (sessionId.getD fresh) [] := by
  unfold askQuestion
  rw [if_neg (by omega), if_neg (by omega)]
  have hlex : findRelevantDocuments deps question.data 3 = [] := by
    unfold findRelevantDocuments
    rw [htext]
    rfl
  rcases hemb with ⟨e, he⟩ | ⟨v, hv, hvs⟩
  · simp only [he, hlex, hgen]
  · by_cases h0 : 0 < v.length
    · have hbye : findRelevantDocumentsByEmbedding deps v 3 = [] := by
        unfold findRelevantDocumentsByEmbedding
        rw [hvs h0]
      simp only [hv, if_pos h0, hbye, hlex, hgen, List.length_nil, if_pos rfl, if_true]
    · simp only [hv, if_neg h0, hlex, hgen]

/-- Generation failure is fatal (500, no answer); a history-save failure
after successful generation is not (200 with the answer, session id and
sources). Stated on the vector-search happy path. -/
theorem askQuestion_generation {D : Type} (deps : AskDeps D) (question : String)
    (sessionId : Option String) (fresh : String) (v : List ℝ) (docs : List D)
    (hq1 : (jsTrim question.data).length ≠ 0)
    (hq2 : question.length ≤ 1000)
    (hv : deps.embed question.data = .ok v)
    (h0 : 0 < v.length)
    (hvs : deps.vectorSearch v 3 = .ok docs)
    (hne : docs ≠ []) :
    (∀ e, deps.generate question.data docs = .error e →
      askQuestion deps question sessionId fresh = .serverError e) ∧
    (∀ ans, deps.generate question.data docs = .ok ans →
      ∀ he, deps.saveHistory (sessionId.getD fresh) question.data ans docs = .error he →
        askQuestion deps question sessionId fresh =
          .success ans (sessionId.getD fresh) docs) := by
  have hdocs : findRelevantDocumentsByEmbedding deps v 3 = docs := by
    unfold findRelevantDocumentsByEmbedding
    rw [hvs]
  have hmain : askQuestion deps question sessionId fresh =
      (match deps.generate question.data docs with
        | .error e => AskResult.serverError e
        | .ok aiResponse => .success aiResponse (sessionId.getD fresh) docs) := by
    unfold askQuestion
    rw [if_neg (by omega), if_neg (by omega)]
    simp only [hv, if_pos h0, hdocs,
      if_neg (by simpa [List.length_eq_zero] using hne : ¬docs.length = 0)]
  constructor
  · intro e hgen
    rw [hmain, hgen]
  · intro ans hgen _ _
    rw [hmain, hgen]

/-! # Claims -/

/-- C1: if the normalized content is strictly longer than 2000 characters,
a successful ingestion creates exactly one parent record (empty embedding,
`isChunk = false`, `chunkCount = N`) followed by the `N` chunk records, the
`i`-th carrying `isChunk = true`, the parent's id, `chunkIndex = i`,
`chunkCount = N` and the title suffixed with `(Chunk i+1/N)`; if the
normalized length is at most 2000 (boundary inclusive), it creates exactly
one standalone record with `isChunk = false` and no `chunkCount`. -/
theorem claim_C1 {embed : List Char → Except String (List ℝ)}
    {title : String} {content : List Char} {docs : List DocRecord}
    (h : processAndSaveDocument embed title content = .ok docs) :
    (2000 < (cleanText content).length →
      ∃ chunks, chunkText (cleanText content) 1000 200 = some chunks ∧
        docs.length = chunks.length + 1 ∧
        docs.head? = some ⟨title, cleanText content, [], false, none, none,
          some chunks.length⟩ ∧
        ∀ i (hi : i < chunks.length), ∃ emb,
          embed chunks[i].text = .ok emb ∧
          docs[i + 1]? = some ⟨title ++ " (Chunk " ++ toString (i + 1) ++ "/"
              ++ toString chunks.length ++ ")",
            chunks[i].text, emb, true, some 0, some i, some chunks.length⟩) ∧
    ((cleanText content).length ≤ 2000 →
      ∃ emb, embed (cleanText content) = .ok emb ∧
        docs = [⟨title, cleanText content, emb, false, none, none, none⟩]) :=
  processAndSaveDocument_ok h

theorem claim_C1_witness :
    ∃ emb, (fun _ : List Char => (Except.ok [] : Except String (List ℝ)))
        (cleanText "hi".data) = .ok emb ∧
      ([⟨"T", cleanText "hi".data, [], false, none, none, none⟩] : List DocRecord) =
        [⟨"T", cleanText "hi".data, emb, false, none, none, none⟩] :=
  (claim_C1 (show processAndSaveDocument (fun _ => Except.ok []) "T" "hi".data =
      .ok [⟨"T", cleanText "hi".data, [], false, none, none, none⟩] from rfl)).2
    (by decide)

/-- C2 as stated is false: `generateEmbedding` re-throws failures (its
catch block ends in `throw`, never returning `null`), and
`processAndSaveDocument` does not catch, so an embedding failure for a
short document prevents the document from being stored and makes the call
report an error, not success. -/
theorem claim_C2_counterexample :
    processAndSaveDocument (fun _ => .error "embedding failed") "Doc" "hello".data =
      .error "embedding failed" := rfl

/-- C2 (amended): an embedding-service failure aborts the ingestion call —
whenever the embedding call fails, `processAndSaveDocument` returns an
error (for chunked content the parent record has already been created, but
the failing chunk's record is not, and no success is reported; for short
content no record is created). -/
theorem claim_C2_amended {embed : List Char → Except String (List ℝ)}
    {e : String} (title : String) (content : List Char)
    (hfail : ∀ t, embed t = .error e) :
    ∃ msg, processAndSaveDocument embed title content = .error msg :=
  processAndSaveDocument_embedFail title content hfail

theorem claim_C2_witness :
    ∃ msg, processAndSaveDocument (fun _ => (Except.error "E" : Except String (List ℝ)))
      "T" "note".data = .error msg :=
  claim_C2_amended "T" "note".data fun _ => rfl

/-- C3: for a valid question, if the embedding fails (or the vector search
returns no documents) and the lexical fallback also returns no documents,
the answer pipeline still succeeds, invoking generation with empty context
and returning `sources = []`. -/
theorem claim_C3 {D : Type} (deps : AskDeps D) (question : String)
    (sessionId : Option String) (fresh : String) (ans : String)
    (hq1 : (jsTrim question.data).length ≠ 0)
    (hq2 : question.length ≤ 1000)
    (hemb : (∃ e, deps.embed question.data = .error e) ∨
      (∃ v, deps.embed question.data = .ok v ∧
        (0 < v.length → deps.vectorSearch v 3 = .ok [])))
    (htext : deps.textSearch question.data 3 = .ok [])
    (hgen : deps.generate question.data [] = .ok ans) :
    askQuestion deps question sessionId fresh =
      .success ans (sessionId.getD fresh) [] :=
  askQuestion_degraded deps question sessionId fresh ans hq1 hq2 hemb htext hgen

theorem claim_C3_witness :
    askQuestion ⟨fun _ => .error "down", fun _ _ => .ok [], fun _ _ => .ok ([] : List Nat),
        fun _ _ => .ok "ANS", fun _ _ _ _ => .ok ()⟩
      "where is the library?" none "sess1" = .success "ANS" "sess1" [] :=
  claim_C3 _ _ none "sess1" _ (by decide) (by decide) (Or.inl ⟨"down", rfl⟩) rfl rfl

/-- C4: a generation failure is fatal to the request (500, no answer),
while a chat-history persistence failure after successful generation is
non-fatal: the answer, resolved session id and sources are still returned. -/
theorem claim_C4 {D : Type} (deps : AskDeps D) (question : String)
    (sessionId : Option String) (fresh : String) (v : List ℝ) (docs : List D)
    (hq1 : (jsTrim question.data).length ≠ 0)
    (hq2 : question.length ≤ 1000)
    (hv : deps.embed question.data = .ok v)
    (h0 : 0 < v.length)
    (hvs : deps.vectorSearch v 3 = .ok docs)
    (hne : docs ≠ []) :
    (∀ e, deps.generate question.data docs = .error e →
      askQuestion deps question sessionId fresh = .serverError e) ∧
    (∀ ans, deps.generate question.data docs = .ok ans →
      ∀ he, deps.saveHistory (sessionId.getD fresh) question.data ans docs = .error he →
        askQuestion deps question sessionId fresh =
          .success ans (sessionId.getD fresh) docs) :=
  askQuestion_generation deps question sessionId fresh v docs hq1 hq2 hv h0 hvs hne

theorem claim_C4_witness :
    askQuestion ⟨fun _ => .ok [1], fun _ _ => .ok [7], fun _ _ => .ok ([] : List Nat),
        fun _ _ => .error "GENFAIL", fun _ _ _ _ => .error "HISTFAIL"⟩
      "q" none "s" = .serverError "GENFAIL" ∧
    askQuestion ⟨fun _ => .ok [1], fun _ _ => .ok [7], fun _ _ => .ok ([] : List Nat),
        fun _ _ => .ok "ANS", fun _ _ _ _ => .error "HISTFAIL"⟩
      "q" none "s" = .success "ANS" "s" [7] :=
  ⟨(claim_C4 _ _ none "s" [1] [7] (by decide) (by decide) rfl (by decide) rfl
      (by decide)).1 "GENFAIL" rfl,
    (claim_C4 _ _ none "s" [1] [7] (by decide) (by decide) rfl (by decide) rfl
      (by decide)).2 "ANS" rfl "HISTFAIL" rfl⟩

set_option maxRecDepth 1000000 in
/-- C5's iteration/chunk bound is false: 1001 characters of `a` produce 3
chunks and 3 loop iterations, while `ceil(1001 / (1000 - 200)) = 2` — the
loop re-emits a trailing overlap-sized chunk after the window first reaches
the end of the text. -/
theorem claim_C5_counterexample :
    (chunkText (List.replicate 1001 'a') 1000 200).map List.length = some 3 ∧
      (cleanText (List.replicate 1001 'a')).length = 1001 ∧
      (1001 + (1000 - 200) - 1) / (1000 - 200) = 2 ∧
      ¬(3 ≤ (1001 + (1000 - 200) - 1) / (1000 - 200)) := by decide

/-- C5 (amended): chunking any finite string terminates, but the iteration
and chunk-count bound is `len / 602 + 3` (each non-final iteration advances
the cursor by at least 602 = (maxChunkSize − 198) − overlap characters, and
at most two extra tail iterations follow), not
`ceil(len / (maxChunkSize − overlap))`. -/
theorem claim_C5_amended (s : List Char) :
    ∃ out, chunkText s 1000 200 = some out ∧
      out.length ≤ (cleanText s).length / 602 + 3 ∧
      (1000 < (cleanText s).length →
        chunkLoop (cleanText s) 1000 200 ((cleanText s).length / 602 + 3)
          ⟨0, 0, []⟩ = some out) := by
  by_cases h : (cleanText s).length ≤ 1000
  · exact ⟨_, chunkText_short h, by simp, fun hl => absurd hl (by omega)⟩
  · obtain ⟨out, hout⟩ := chunkLoop_fuel_strong (cleanText_getLast? s) (by omega)
      ((cleanText s).length / 602 + 3) ⟨0, 0, []⟩
      (by change 0 < (cleanText s).length; omega) (by change _ ≤ _; omega)
    have hlen := chunkLoop_length_le _ _ _ hout
    refine ⟨out, ?_, by simpa using hlen, fun _ => hout⟩
    rw [chunkText_long (by omega)]
    exact chunkLoop_mono _ _ _ _ (by omega) hout

theorem claim_C5_witness :
    ∃ out, chunkText "a finite string".data 1000 200 = some out ∧
      out.length ≤ (cleanText "a finite string".data).length / 602 + 3 ∧
      (1000 < (cleanText "a finite string".data).length →
        chunkLoop (cleanText "a finite string".data) 1000 200
          ((cleanText "a finite string".data).length / 602 + 3)
          ⟨0, 0, []⟩ = some out) :=
  claim_C5_amended "a finite string".data

/-- C6: when the normalized text fits in one window
(`len(normalize(s)) ≤ maxChunkSize`), `chunkText` returns exactly one
chunk whose text is the whole normalized text, with index 0, start offset
0 and end offset the normalized length. -/
theorem claim_C6 (s : List Char) (chunkSize overlap : Nat)
    (h : (cleanText s).length ≤ chunkSize) :
    chunkText s chunkSize overlap =
      some [⟨cleanText s, 0, 0, (cleanText s).length⟩] :=
  chunkText_short h

theorem claim_C6_witness :
    chunkText "hello world".data 1000 200 =
      some [⟨cleanText "hello world".data, 0, 0,
        (cleanText "hello world".data).length⟩] :=
  claim_C6 "hello world".data 1000 200 (by decide)

/-- C7: text normalization (`cleanText`) is idempotent. -/
theorem claim_C7 (s : List Char) : cleanText (cleanText s) = cleanText s :=
  cleanText_idem s

/-- C8: `cosineSimilarity` throws a dimension error on every pair of
vectors of unequal length; on equal-length vectors it returns a value in
`[-1, 1]` (real-valued idealization of JS floats); and it returns exactly 0
when the vectors are empty or either norm is zero. -/
theorem claim_C8 :
    (∀ a b : List ℝ, a.length ≠ b.length →
      cosineSimilarity a b = .error "Vectors must have the same dimension") ∧
    (∀ a b : List ℝ, a.length = b.length →
      ∃ r, cosineSimilarity a b = .ok r ∧ -1 ≤ r ∧ r ≤ 1) ∧
    (∀ a b : List ℝ, a.length = b.length →
      (a.length = 0 ∨
        Real.sqrt (∑ i in Finset.range a.length, a.getD i 0 * a.getD i 0) = 0 ∨
        Real.sqrt (∑ i in Finset.range a.length, b.getD i 0 * b.getD i 0) = 0) →
      cosineSimilarity a b = .ok 0) :=
  ⟨fun _ _ h => cosineSimilarity_dim h,
    fun _ _ h => cosineSimilarity_bounded h,
    fun _ _ h hz => cosineSimilarity_zero h hz⟩

theorem claim_C8_witness :
    cosineSimilarity [1, 0] [1] = .error "Vectors must have the same dimension" ∧
    (∃ r, cosineSimilarity [1] [1] = .ok r ∧ -1 ≤ r ∧ r ≤ 1) ∧
    cosineSimilarity ([] : List ℝ) [] = .ok 0 :=
  ⟨claim_C8.1 [1, 0] [1] (by decide),
    claim_C8.2.1 [1] [1] rfl,
    claim_C8.2.2 [] [] rfl (Or.inl rfl)⟩

/-- C9 as stated is false: `findTopKSimilar` does not catch the dimension
error thrown by `cosineSimilarity`, so a retained item whose embedding has
a different length than the query vector makes the call throw instead of
returning a sorted list. -/
theorem claim_C9_counterexample :
    findTopKSimilar [1] [⟨(), [1, 2]⟩] 5 =
      .error "Vectors must have the same dimension" := rfl

/-- C9 (amended): provided every item with a non-empty embedding matches
the query vector's dimension, `findTopKSimilar` discards the items with
empty embeddings, scores the rest by cosine similarity, and returns a list
sorted descending by similarity of length `min k (number of retained
items)`, each entry carrying its own similarity score. -/
theorem claim_C9_amended {α : Type} (q : List ℝ) (items : List (EmbeddedItem α))
    (k : Nat)
    (hdim : ∀ it ∈ items, 0 < it.embedding.length → it.embedding.length = q.length) :
    ∃ out, findTopKSimilar q items k = .ok out ∧
      out.length = min k (items.filter fun it => it.embedding.length > 0).length ∧
      List.Sorted (fun x y : EmbeddedItem α × ℝ => y.2 ≤ x.2) out ∧
      ∀ x ∈ out, cosineSimilarity q x.1.embedding = .ok x.2 :=
  findTopKSimilar_spec q items k hdim

theorem claim_C9_witness :
    ∃ out, findTopKSimilar [1] ([⟨0, [1]⟩] : List (EmbeddedItem Nat)) 5 = .ok out ∧
      out.length = min 5 (([⟨0, [1]⟩] : List (EmbeddedItem Nat)).filter
        fun it => it.embedding.length > 0).length ∧
      List.Sorted (fun x y : EmbeddedItem Nat × ℝ => y.2 ≤ x.2) out ∧
      ∀ x ∈ out, cosineSimilarity [1] x.1.embedding = .ok x.2 :=
  claim_C9_amended [1] [⟨0, [1]⟩] 5 (by intro it hit h0; fin_cases hit; rfl)

set_option maxRecDepth 1000000 in
/-- C10: every chunk emitted by `chunkText` with the default parameters has
at most `maxChunkSize + 2 = 1002` characters (the sentence cut point may
land up to the two-character terminator past the window), and chunks longer
than `maxChunkSize` do occur, so the plain `maxChunkSize` bound would be
wrong. -/
theorem claim_C10 :
    (∀ (s : List Char) (out : List TextChunk), chunkText s 1000 200 = some out →
      ∀ c ∈ out, c.text.length ≤ 1002) ∧
    (∃ (s : List Char) (out : List TextChunk) (c : TextChunk),
      chunkText s 1000 200 = some out ∧ c ∈ out ∧ 1000 < c.text.length) := by
  refine ⟨fun s out h => chunkText_sizes h, ?_⟩
  have hch : (chunkText (List.replicate 1000 'a' ++ '.' :: ' ' :: List.replicate 500 'b')
      1000 200).elim false
      (fun out => out.any fun c => decide (1000 < c.text.length)) = true := by decide
  rcases hsome : chunkText (List.replicate 1000 'a' ++ '.' :: ' ' :: List.replicate 500 'b')
      1000 200 with _ | out
  · rw [hsome] at hch
    exact absurd hch (by simp)
  · rw [hsome] at hch
    simp only [Option.elim] at hch
    obtain ⟨c, hc, hdec⟩ := List.any_eq_true.1 hch
    exact ⟨_, out, c, hsome, hc, of_decide_eq_true hdec⟩

theorem claim_C10_witness :
    ∃ out, chunkText "tiny".data 1000 200 = some out ∧
      ∀ c ∈ out, c.text.length ≤ 1002 :=
  ⟨[⟨"tiny".data, 0, 0, 4⟩], by decide, claim_C10.1 "tiny".data _ (by decide)⟩

end SmartDesk
